import Mathlib

/-!
Course planner (`ProjectTwo.cpp`): hash table and ingestion.

A shallow embedding of the chained hash table of `ProjectTwo.cpp` and of the
file ingestion built on it, followed by theorems about them.

* `std::string` is a list of bytes (`Str`), `std::vector` is a `List`.
* A bucket chain (`Node*` linked list) is the list of the courses it holds, head first.
* `unsigned int` arithmetic is arithmetic on `Nat` reduced modulo `2 ^ 32`.
* Undefined behaviour and exceptions are explicit: operations return `Except Err _`.
-/

namespace ProjectTwo

/-- One `char` of a `std::string`, read as `unsigned char`. -/
abbrev Byte := Fin 256

/-- A `std::string`: its bytes in order. -/
abbrev Str := List Byte

/-- The `Course` structure of the source. -/
structure Course where
  courseNumber : Str
  courseTitle : Str
  prerequisites : List Str
deriving DecidableEq, Repr

/-- Ways in which an operation may fail to return normally. -/
inductive Err where
  /-- The `invalid_argument` thrown by the constructor. -/
  | invalidArgument
  /-- The operation `% tableSize` with `tableSize == 0`. -/
  | divisionByZero
  /-- The access `nodes[index]` with `index >= nodes.size()`. -/
  | outOfRange
  /-- A loop of the model ran out of its iteration budget. -/
  | outOfFuel
deriving DecidableEq, Repr

/-- The data members of class `HashTable`: the bucket array and `tableSize`. -/
structure HashTable where
  nodes : List (List Course)
  tableSize : Nat
deriving DecidableEq, Repr

deriving instance DecidableEq for Except

/-- The default argument of the constructor. -/
def defaultSize : Nat := 179

namespace HashTable

/-- The loop of `HashTable::hash`, from accumulator `hashValue` over the remaining characters:
`hashValue = (hashValue * 31 + (unsigned char) ch) % tableSize` in 32-bit unsigned arithmetic. -/
def hashLoop (tableSize : Nat) : Nat → Str → Except Err Nat
  | hashValue, [] => .ok hashValue
  | hashValue, ch :: rest =>
    if tableSize = 0 then .error .divisionByZero
    else hashLoop tableSize ((hashValue * 31 + ch.val) % 4294967296 % tableSize) rest

/-- The member function `HashTable::hash`. -/
def hash (t : HashTable) (courseNumber : Str) : Except Err Nat :=
  hashLoop t.tableSize 0 courseNumber

/-- The constructor `HashTable(unsigned int size)`. -/
def new (size : Nat) : Except Err HashTable :=
  if size = 0 then .error .invalidArgument
  else .ok { nodes := List.replicate size [], tableSize := size }

/-- The member function `HashTable::Insert`: the course becomes the head of its bucket chain. -/
def Insert (t : HashTable) (course : Course) : Except Err HashTable :=
  match t.hash course.courseNumber with
  | .error e => .error e
  | .ok index =>
    if h : index < t.nodes.length then
      .ok { t with nodes := t.nodes.set index (course :: t.nodes[index]) }
    else .error .outOfRange

/-- The `while (node != nullptr)` loop of `Search` along one chain. -/
def searchChain (courseNumber : Str) : List Course → Option Course
  | [] => none
  | c :: next => if c.courseNumber = courseNumber then some c else searchChain courseNumber next

/-- The member function `HashTable::Search`; `none` is the null pointer. -/
def Search (t : HashTable) (courseNumber : Str) : Except Err (Option Course) :=
  match t.hash courseNumber with
  | .error e => .error e
  | .ok index =>
    if h : index < t.nodes.length then .ok (searchChain courseNumber t.nodes[index])
    else .error .outOfRange

/-- The inner loop of `GetAllCourses`: `push_back` of every course of one chain. -/
def pushChain (courseList : List Course) : List Course → List Course
  | [] => courseList
  | c :: next => pushChain (courseList ++ [c]) next

/-- The member function `HashTable::GetAllCourses`. -/
def GetAllCourses (t : HashTable) : List Course :=
  t.nodes.foldl pushChain []

/-- The loop `while (node != nullptr) { Insert(node->course); node = node->next; }`;
also a sequence of `Insert` calls made one after the other. -/
def insertChain (t : HashTable) : List Course → Except Err HashTable
  | [] => .ok t
  | c :: next =>
    match t.Insert c with
    | .error e => .error e
    | .ok t' => insertChain t' next

/-- The loop `for (const Node* node : other.nodes)` of the copy constructor and of `operator=`. -/
def insertAllChains (t : HashTable) : List (List Course) → Except Err HashTable
  | [] => .ok t
  | node :: rest =>
    match insertChain t node with
    | .error e => .error e
    | .ok t' => insertAllChains t' rest

/-- The copy constructor `HashTable(const HashTable& other)`. -/
def copy (other : HashTable) : Except Err HashTable :=
  insertAllChains { nodes := List.replicate other.tableSize [], tableSize := other.tableSize }
    other.nodes

/-- A store built from an empty store of the given capacity by `Insert` calls in order. -/
def build (size : Nat) (courses : List Course) : Except Err HashTable :=
  match new size with
  | .error e => .error e
  | .ok t => insertChain t courses

/-- The class invariant: as many buckets as `tableSize`, which is positive. -/
def WF (t : HashTable) : Prop :=
  t.nodes.length = t.tableSize ∧ 0 < t.tableSize

end HashTable

/-! ## Auxiliary definitions used in the proofs about the store -/

/-- The value of `hash` for a table of size `c`, as a plain function (`c > 0`). -/
def hashVal (c : Nat) (k : Str) : Nat :=
  k.foldl (fun h ch => (h * 31 + ch.val) % 4294967296 % c) 0

/-- Bucket `i` after inserting `rs` in order into an empty table of size `c`. -/
def bucketOf (c : Nat) (rs : List Course) (i : Nat) : List Course :=
  (rs.filter (fun r => hashVal c r.courseNumber = i)).reverse

/-- The bucket array after inserting `rs` in order into an empty table of size `c`. -/
def bucketsOf (c : Nat) (rs : List Course) : List (List Course) :=
  (List.range c).map (bucketOf c rs)

/-! ## Strings and streams -/

/-- The delimiter `','`. -/
def comma : Byte := 44

/-- The line terminator `'\n'`. -/
def newline : Byte := 10

/-- Membership in the character set `" \t\n\r"` given to `find_first_not_of` and
`find_last_not_of`. -/
def isTrimChar (ch : Byte) : Bool :=
  ch = 32 || ch = 9 || ch = 10 || ch = 13

/-- The call `str.find_first_not_of(" \t\n\r")`; `none` is `string::npos`. -/
def find_first_not_of : Str → Option Nat
  | [] => none
  | ch :: rest =>
    if isTrimChar ch then
      match find_first_not_of rest with
      | none => none
      | some i => some (i + 1)
    else some 0

/-- The call `str.find_last_not_of(" \t\n\r")`; `none` is `string::npos`. -/
def find_last_not_of : Str → Option Nat
  | [] => none
  | ch :: rest =>
    match find_last_not_of rest with
    | some i => some (i + 1)
    | none => if isTrimChar ch then none else some 0

/-- The call `str.substr(pos, n)` for `pos <= str.size()`. -/
def substr (str : Str) (pos n : Nat) : Str :=
  (str.drop pos).take n

/-- The static member function `HashTable::trim`. When both positions exist they are indices
into `str` with `first <= last`, so `last - first + 1` does not wrap around; with `last == npos`
(which cannot happen once `first` exists) the count is the wrapped 64-bit value. -/
def HashTable.trim (str : Str) : Str :=
  match find_first_not_of str, find_last_not_of str with
  | none, _ => []
  | some first, some last => substr str first (last - first + 1)
  | some first, none =>
    substr str first ((18446744073709551615 + 18446744073709551616 - first + 1)
      % 18446744073709551616)

/-- The state of an input stream (`ifstream`, `stringstream`): the characters not yet read and
the `eofbit` and `failbit` flags. -/
structure IStream where
  buf : Str
  eof : Bool
  fail : Bool
deriving DecidableEq, Repr

/-- A stream freshly opened on the given characters. -/
def IStream.ofStr (s : Str) : IStream :=
  { buf := s, eof := false, fail := false }

/-- The call `std::getline(is, str, delim)`: the stream afterwards and the extracted string, or
`none` when the stream converts to `false` afterwards. A stream that is not good fails at once;
otherwise characters are taken up to the delimiter (extracted and dropped) or up to the end of
the input (which sets `eofbit`), and extracting nothing at all sets `failbit`. -/
def getline (is : IStream) (delim : Byte) : IStream × Option Str :=
  if is.eof || is.fail then ({ is with fail := true }, none)
  else
    let str := is.buf.takeWhile (fun ch => ch != delim)
    match is.buf.dropWhile (fun ch => ch != delim) with
    | _ :: rest => ({ buf := rest, eof := false, fail := false }, some str)
    | [] =>
      if str = [] then ({ buf := [], eof := true, fail := true }, none)
      else ({ buf := [], eof := true, fail := false }, some str)

/-- The comparison `a < b` of two `std::string`s: lexicographic on unsigned bytes, a proper
prefix being smaller. -/
def strLt : Str → Str → Bool
  | [], [] => false
  | [], _ :: _ => true
  | _ :: _, [] => false
  | a :: as, b :: bs => decide (a < b) || (decide (a = b) && strLt as bs)

/-! ## Ingestion and listing -/

/-- The loop `while (getline(ss, prerequisite, ','))` of `loadCourseData`, with an iteration
budget. -/
def collectPrerequisites : Nat → IStream → List Str → Except Err (List Str)
  | 0, _, _ => .error .outOfFuel
  | fuel + 1, ss, prerequisites =>
    match getline ss comma with
    | (_, none) => .ok prerequisites
    | (ss', some prerequisite) =>
      collectPrerequisites fuel ss'
        (if HashTable.trim prerequisite = [] then prerequisites
         else prerequisites ++ [HashTable.trim prerequisite])

/-- The two tables that the loop of `loadCourseData` works on. -/
structure LoadState where
  coursesTable : HashTable
  courseExistenceTable : HashTable
deriving DecidableEq, Repr

/-- The body of the loop `while (getline(file, line))` of `loadCourseData`, for one line; every
`continue` returns the state unchanged. -/
def processLine (st : LoadState) (line : Str) : Except Err LoadState :=
  if line = [] then .ok st
  else
    match getline (IStream.ofStr line) comma with
    | (_, none) => .ok st
    | (ss1, some courseNumber) =>
      match getline ss1 comma with
      | (_, none) => .ok st
      | (ss2, some courseTitle) =>
        if HashTable.trim courseNumber = [] ∨ HashTable.trim courseTitle = [] then .ok st
        else
          match collectPrerequisites (ss2.buf.length + 1) ss2 [] with
          | .error e => .error e
          | .ok prerequisites =>
            match st.courseExistenceTable.Search (HashTable.trim courseNumber) with
            | .error e => .error e
            | .ok (some _) => .ok st
            | .ok none =>
              match st.coursesTable.Insert
                { courseNumber := HashTable.trim courseNumber,
                  courseTitle := HashTable.trim courseTitle,
                  prerequisites := prerequisites } with
              | .error e => .error e
              | .ok coursesTable =>
                match st.courseExistenceTable.Insert
                  { courseNumber := HashTable.trim courseNumber,
                    courseTitle := [], prerequisites := [] } with
                | .error e => .error e
                | .ok courseExistenceTable =>
                  .ok { coursesTable := coursesTable,
                        courseExistenceTable := courseExistenceTable }

/-- The loop `while (getline(file, line))` of `loadCourseData`, with an iteration budget. -/
def readLines : Nat → IStream → LoadState → Except Err LoadState
  | 0, _, _ => .error .outOfFuel
  | fuel + 1, file, st =>
    match getline file newline with
    | (_, none) => .ok st
    | (file', some line) =>
      match processLine st line with
      | .error e => .error e
      | .ok st' => readLines fuel file' st'

/-- The function `loadCourseData`. The first argument is the content of the named file, `none`
when it cannot be opened; the result is the returned flag and the caller's table afterwards. -/
def loadCourseData (content : Option Str) (coursesTable : HashTable) :
    Except Err (Bool × HashTable) :=
  match content with
  | none => .ok (false, coursesTable)
  | some text =>
    match HashTable.new defaultSize with
    | .error e => .error e
    | .ok courseExistenceTable =>
      match readLines (text.length + 1) (IStream.ofStr text)
          { coursesTable := coursesTable, courseExistenceTable := courseExistenceTable } with
      | .error e => .error e
      | .ok st => .ok (true, st.coursesTable)

/-- The comparator of `printCourseList`: `a.courseNumber < b.courseNumber`. -/
def byCourseNumber (a b : Course) : Bool :=
  strLt a.courseNumber b.courseNumber

/-- The library routine `std::sort(first, last, comp)`, given here by insertion sort: the
result is a permutation of the input in which no element compares less than an earlier one. -/
def stdSort (comp : Course → Course → Bool) (l : List Course) : List Course :=
  l.insertionSort (fun a b => comp b a = false)

/-- The courses that `printCourseList` prints, in the order in which it prints them. -/
def printCourseList (coursesTable : HashTable) : List Course :=
  stdSort byCourseNumber coursesTable.GetAllCourses

/-! ## The ingestion rules in the words of the specification -/

/-- A string cut at every occurrence of the delimiter; `n` delimiters give `n + 1` fields. -/
def splitOnByte (delim : Byte) : Str → List Str
  | [] => [[]]
  | ch :: rest =>
    if ch = delim then [] :: splitOnByte delim rest
    else
      match splitOnByte delim rest with
      | [] => [[ch]]
      | field :: fields => (ch :: field) :: fields

/-- A string without its leading and trailing whitespace (space, tab, CR, LF). -/
def specTrim (s : Str) : Str :=
  (s.dropWhile isTrimChar).rdropWhile isTrimChar

/-- The physical lines of a text. -/
def specLines (text : Str) : List Str :=
  splitOnByte newline text

/-- The `i`-th comma-separated field of a line, trimmed; `none` when the line has no such
field. -/
def specField (line : Str) (i : Nat) : Option Str :=
  ((splitOnByte comma line)[i]?).map specTrim

/-- A field that is empty or missing. -/
def emptyOrMissing : Option Str → Bool
  | none => true
  | some s => decide (s = [])

/-- The prerequisites a line lists: the fields after the second one, each trimmed, the empty
ones removed. -/
def specPrerequisites (line : Str) : List Str :=
  (((splitOnByte comma line).drop 2).map specTrim).filter (fun p => decide (p ≠ []))

/-- The record a line stands for. -/
def specCourse (line : Str) : Course :=
  { courseNumber := (specField line 0).getD [],
    courseTitle := (specField line 1).getD [],
    prerequisites := specPrerequisites line }

/-- A line lacks a required part: it is empty, or its identifier or its title is empty or
missing. -/
def specInvalid (line : Str) : Bool :=
  decide (line = []) || emptyOrMissing (specField line 0) || emptyOrMissing (specField line 1)

/-- The rule for skipping a line, given the records accepted from earlier lines: the line is
invalid, or its identifier is the identifier of an earlier accepted line. -/
def specSkipped (accepted : List Course) (line : Str) : Bool :=
  specInvalid line ||
    accepted.any (fun r => decide (r.courseNumber = (specCourse line).courseNumber))

/-- The `Insert` calls one ingestion pass makes, in order: none for a skipped line, one for
every other line. -/
def specInserts (accepted : List Course) : List Str → List Course
  | [] => []
  | line :: rest =>
    if specSkipped accepted line then specInserts accepted rest
    else specCourse line :: specInserts (accepted ++ [specCourse line]) rest

/-- The valid records of a text, in the order of their lines. -/
def specValidRecords (text : Str) : List Course :=
  ((specLines text).filter (fun line => !specInvalid line)).map specCourse

/-! ## Auxiliary definitions used in the proofs about ingestion -/

/-- A list of fields without its last field when that one is empty. -/
def dropLastIfEmpty : List Str → List Str
  | [] => []
  | [f] => if f = [] then [] else [f]
  | f :: g :: fs => f :: dropLastIfEmpty (g :: fs)

/-- The strings that successive calls of `getline` extract from a fresh stream on `s`. -/
def getlineFields (delim : Byte) (s : Str) : List Str :=
  dropLastIfEmpty (splitOnByte delim s)

/-- The loop body `processLine` run over a list of lines. -/
def processLines (st : LoadState) : List Str → Except Err LoadState
  | [] => .ok st
  | line :: rest =>
    match processLine st line with
    | .error e => .error e
    | .ok st' => processLines st' rest

/-- The record that `loadCourseData` puts into `courseExistenceTable` for an accepted course. -/
def existenceRecord (r : Course) : Course :=
  { courseNumber := r.courseNumber, courseTitle := [], prerequisites := [] }

/-- The table `courseExistenceTable` after the given records were accepted. -/
def existenceTable (accepted : List Course) : HashTable :=
  { nodes := bucketsOf defaultSize (accepted.map existenceRecord), tableSize := defaultSize }

/-- The end of the loop body of `loadCourseData`, from the duplicate check on, for a parsed
record. -/
def storeCourse (st : LoadState) (r : Course) : Except Err LoadState :=
  match st.courseExistenceTable.Search r.courseNumber with
  | .error e => .error e
  | .ok (some _) => .ok st
  | .ok none =>
    match st.coursesTable.Insert r with
    | .error e => .error e
    | .ok coursesTable =>
      match st.courseExistenceTable.Insert (existenceRecord r) with
      | .error e => .error e
      | .ok courseExistenceTable =>
        .ok { coursesTable := coursesTable, courseExistenceTable := courseExistenceTable }

/-! ## Sample data -/

/-- The record `CS101` with title `A` and no prerequisite. -/
def sampleFirst : Course :=
  { courseNumber := [67, 83, 49, 48, 49], courseTitle := [65], prerequisites := [] }

/-- A second record with the identifier `CS101`: title `B`, prerequisite `C`. -/
def sampleSecond : Course :=
  { courseNumber := [67, 83, 49, 48, 49], courseTitle := [66], prerequisites := [[67]] }

/-- The table of three buckets reached by inserting `sampleFirst`, then `sampleSecond`. -/
def sampleTable : HashTable :=
  { nodes := [[], [], [sampleSecond, sampleFirst]], tableSize := 3 }

/-- The line `CS201, D ,, CS101 ,`. -/
def sampleLine : Str :=
  [67, 83, 50, 48, 49, 44, 32, 68, 32, 44, 44, 32, 67, 83, 49, 48, 49, 32, 44]

/-- The two-line text `CS201,D` / `CS101,A` followed by a repeated `CS201,E` line. -/
def sampleText : Str :=
  [67, 83, 50, 48, 49, 44, 68, 10, 67, 83, 49, 48, 49, 44, 65, 10,
   67, 83, 50, 48, 49, 44, 69, 10]

/-! ## Clearing, assignment and the reachable stores -/

/-- The inner loop of `clear` on one chain: node after node is deleted until none is left. -/
def HashTable.clearChain : List Course → List Course
  | [] => []
  | _ :: next => clearChain next

/-- The member function `HashTable::clear`: every bucket is emptied, `tableSize` and the number
of buckets stay. -/
def HashTable.clear (t : HashTable) : HashTable :=
  { t with nodes := t.nodes.map HashTable.clearChain }

/-- The call `nodes.resize(n, nullptr)`: the first `n` buckets are kept, missing ones are
added empty. -/
def HashTable.resize (nodes : List (List Course)) (n : Nat) : List (List Course) :=
  if n ≤ nodes.length then nodes.take n
  else nodes ++ List.replicate (n - nodes.length) []

/-- The assignment `self = other` of two distinct objects (`this != &other`): `clear()`, then
`tableSize = other.tableSize`, `nodes.resize(tableSize, nullptr)` and the insertion of every
course of `other`. Assigning an object to itself does nothing. -/
def HashTable.assign (self other : HashTable) : Except Err HashTable :=
  HashTable.insertAllChains
    { nodes := HashTable.resize self.clear.nodes other.tableSize, tableSize := other.tableSize }
    other.nodes

/-- The stores that a program can hold: results of a successful construction, of `Insert`, of
`clear`, of the copy constructor and of assignment. -/
inductive Reachable : HashTable → Prop
  | construct (size : Nat) (t : HashTable) : HashTable.new size = .ok t → Reachable t
  | insert (t : HashTable) (course : Course) (t' : HashTable) :
      Reachable t → t.Insert course = .ok t' → Reachable t'
  | clear (t : HashTable) : Reachable t → Reachable t.clear
  | copy (other t : HashTable) : Reachable other → other.copy = .ok t → Reachable t
  | assign (self other t : HashTable) :
      Reachable self → Reachable other → self.assign other = .ok t → Reachable t

/-- The polynomial hash of the specification over unbounded integers: the sum of
`byte_i * 31 ^ (n - 1 - i)` over the `n` bytes of the key. -/
def polyHash : Str → Nat
  | [] => 0
  | b :: rest => b.val * 31 ^ rest.length + polyHash rest

/-- Six bytes `0xFF`. -/
def sampleKey : Str := [255, 255, 255, 255, 255, 255]

/-- The largest `unsigned int`. -/
def sampleLargeSize : Nat := 4294967295

/-- The table of five buckets reached by inserting `sampleFirst` into an empty one. -/
def sampleWide : HashTable :=
  { nodes := [[], [sampleFirst], [], [], []], tableSize := 5 }

/-- The table `sampleTable` with its chain in the opposite order. -/
def sampleReversed : HashTable :=
  { nodes := [[], [], [sampleFirst, sampleSecond]], tableSize := 3 }

/-! ## The hash function -/

theorem hashLoop_eq (c : Nat) (hc : 0 < c) (k : Str) (h : Nat) :
    HashTable.hashLoop c h k
      = .ok (k.foldl (fun h ch => (h * 31 + ch.val) % 4294967296 % c) h) := by
  induction k generalizing h with
  | nil => rfl
  | cons ch rest ih =>
    simp only [HashTable.hashLoop, List.foldl_cons]
    rw [if_neg (Nat.pos_iff_ne_zero.mp hc)]
    exact ih _

theorem hash_eq (t : HashTable) (hc : 0 < t.tableSize) (k : Str) :
    t.hash k = .ok (hashVal t.tableSize k) :=
  hashLoop_eq t.tableSize hc k 0

theorem foldl_hash_lt (c : Nat) (hc : 0 < c) (k : Str) (h : Nat) (hh : h < c) :
    k.foldl (fun h ch => (h * 31 + ch.val) % 4294967296 % c) h < c := by
  induction k generalizing h with
  | nil => exact hh
  | cons ch rest ih =>
    simp only [List.foldl_cons]
    exact ih _ (Nat.mod_lt _ hc)

theorem hashVal_lt (c : Nat) (hc : 0 < c) (k : Str) : hashVal c k < c :=
  foldl_hash_lt c hc k 0 hc

/-! ## Insert, Search and GetAllCourses on a well-formed table -/

theorem Insert_eq (t : HashTable) (hwf : t.WF) (r : Course) :
    t.Insert r = .ok { nodes := t.nodes.set (hashVal t.tableSize r.courseNumber)
                                  (r :: t.nodes.getD (hashVal t.tableSize r.courseNumber) []),
                       tableSize := t.tableSize } := by
  have hlt : hashVal t.tableSize r.courseNumber < t.nodes.length := by
    rw [hwf.1]; exact hashVal_lt _ hwf.2 _
  simp only [HashTable.Insert, hash_eq t hwf.2, dif_pos hlt]
  simp [List.getD_eq_getElem?_getD, List.getElem?_eq_getElem hlt]

theorem Insert_WF (t t' : HashTable) (hwf : t.WF) (r : Course) (h : t.Insert r = .ok t') :
    t'.WF ∧ t'.tableSize = t.tableSize := by
  rw [Insert_eq t hwf] at h
  cases h
  exact ⟨⟨by simpa using hwf.1, hwf.2⟩, rfl⟩

theorem Search_eq (t : HashTable) (hwf : t.WF) (k : Str) :
    t.Search k = .ok (HashTable.searchChain k
      (t.nodes.getD (hashVal t.tableSize k) [])) := by
  have hlt : hashVal t.tableSize k < t.nodes.length := by
    rw [hwf.1]; exact hashVal_lt _ hwf.2 _
  simp only [HashTable.Search, hash_eq t hwf.2, dif_pos hlt]
  simp [List.getD_eq_getElem?_getD, List.getElem?_eq_getElem hlt]

theorem pushChain_eq (acc chain : List Course) : HashTable.pushChain acc chain = acc ++ chain := by
  induction chain generalizing acc with
  | nil => simp [HashTable.pushChain]
  | cons c next ih => simp [HashTable.pushChain, ih]

theorem foldl_pushChain (acc : List Course) (nodes : List (List Course)) :
    nodes.foldl HashTable.pushChain acc = acc ++ nodes.flatten := by
  induction nodes generalizing acc with
  | nil => simp
  | cons n rest ih => simp [ih, pushChain_eq]

theorem GetAllCourses_eq (t : HashTable) : t.GetAllCourses = t.nodes.flatten := by
  simp [HashTable.GetAllCourses, foldl_pushChain]

theorem searchChain_eq_find (k : Str) (chain : List Course) :
    HashTable.searchChain k chain = chain.find? (fun c => decide (c.courseNumber = k)) := by
  induction chain with
  | nil => rfl
  | cons c next ih =>
    by_cases h : c.courseNumber = k <;> simp [HashTable.searchChain, List.find?, h, ih]

theorem flatten_set_cons_perm (nodes : List (List Course)) (i : Nat) (r : Course)
    (hi : i < nodes.length) :
    ((nodes.set i (r :: nodes.getD i [])).flatten).Perm (r :: nodes.flatten) := by
  induction nodes generalizing i with
  | nil => simp at hi
  | cons n rest ih =>
    cases i with
    | zero => simp
    | succ j =>
      have hj : j < rest.length := by simpa using hi
      have h := ih j hj
      simp only [List.set_cons_succ, List.flatten_cons, List.getD_cons_succ]
      exact (List.Perm.append_left n h).trans List.perm_middle

theorem length_bucketsOf (c : Nat) (rs : List Course) : (bucketsOf c rs).length = c := by
  simp [bucketsOf]

theorem bucketsOf_nil (c : Nat) : bucketsOf c [] = List.replicate c [] := by
  apply List.ext_getElem
  · simp [bucketsOf]
  · intro i h1 h2
    simp [bucketsOf, bucketOf]

theorem getD_bucketsOf (c : Nat) (rs : List Course) (i : Nat) (hi : i < c) :
    (bucketsOf c rs).getD i [] = bucketOf c rs i := by
  simp [bucketsOf, List.getD_eq_getElem?_getD, List.getElem?_eq_getElem, hi]

theorem bucketsOf_snoc (c : Nat) (hc : 0 < c) (pre : List Course) (r : Course) :
    (bucketsOf c pre).set (hashVal c r.courseNumber)
        (r :: (bucketsOf c pre).getD (hashVal c r.courseNumber) [])
      = bucketsOf c (pre ++ [r]) := by
  have hlt := hashVal_lt c hc r.courseNumber
  rw [getD_bucketsOf c pre _ hlt]
  apply List.ext_getElem
  · simp [bucketsOf]
  · intro i h1 h2
    have hi : i < c := by simpa [bucketsOf] using h2
    rw [List.getElem_set]
    by_cases h : hashVal c r.courseNumber = i
    · subst h
      simp [bucketsOf, bucketOf, List.filter_append, List.filter_cons]
    · simp [bucketsOf, bucketOf, List.filter_append, List.filter_cons, h]

theorem Insert_bucketsOf (c : Nat) (hc : 0 < c) (pre : List Course) (r : Course) :
    HashTable.Insert { nodes := bucketsOf c pre, tableSize := c } r
      = .ok { nodes := bucketsOf c (pre ++ [r]), tableSize := c } := by
  rw [Insert_eq _ ⟨length_bucketsOf c pre, hc⟩]
  simp only [bucketsOf_snoc c hc]

theorem insertChain_bucketsOf (c : Nat) (hc : 0 < c) (pre rs : List Course) :
    HashTable.insertChain { nodes := bucketsOf c pre, tableSize := c } rs
      = .ok { nodes := bucketsOf c (pre ++ rs), tableSize := c } := by
  induction rs generalizing pre with
  | nil => simp [HashTable.insertChain]
  | cons r rest ih =>
    simp only [HashTable.insertChain, Insert_bucketsOf c hc]
    rw [ih (pre ++ [r])]
    simp

theorem build_eq (c : Nat) (hc : 0 < c) (rs : List Course) :
    HashTable.build c rs = .ok { nodes := bucketsOf c rs, tableSize := c } := by
  simp only [HashTable.build, HashTable.new, if_neg (Nat.pos_iff_ne_zero.mp hc)]
  rw [← bucketsOf_nil, insertChain_bucketsOf c hc [] rs]
  simp

theorem insertChain_perm (t : HashTable) (hwf : t.WF) (rs : List Course) :
    ∃ t', t.insertChain rs = .ok t' ∧ t'.WF ∧ t'.tableSize = t.tableSize ∧
      (t'.nodes.flatten).Perm (rs ++ t.nodes.flatten) := by
  induction rs generalizing t with
  | nil => exact ⟨t, rfl, hwf, rfl, List.Perm.refl _⟩
  | cons r rest ih =>
    have hlt : hashVal t.tableSize r.courseNumber < t.nodes.length := by
      rw [hwf.1]; exact hashVal_lt _ hwf.2 _
    have hI := Insert_eq t hwf r
    obtain ⟨hwf1, hsz1⟩ := Insert_WF t _ hwf r hI
    obtain ⟨t', h1, h2, h3, h4⟩ := ih _ hwf1
    refine ⟨t', ?_, h2, h3.trans hsz1, ?_⟩
    · simp only [HashTable.insertChain, hI]
      exact h1
    · refine h4.trans ?_
      refine (List.Perm.append_left rest (flatten_set_cons_perm t.nodes _ r hlt)).trans ?_
      exact List.perm_middle

theorem insertAllChains_perm (t : HashTable) (hwf : t.WF) (chains : List (List Course)) :
    ∃ t', t.insertAllChains chains = .ok t' ∧ t'.WF ∧ t'.tableSize = t.tableSize ∧
      (t'.nodes.flatten).Perm (chains.flatten ++ t.nodes.flatten) := by
  induction chains generalizing t with
  | nil => exact ⟨t, rfl, hwf, rfl, by simp⟩
  | cons n rest ih =>
    obtain ⟨t1, h1, hwf1, hsz1, hp1⟩ := insertChain_perm t hwf n
    obtain ⟨t', h2, hwf2, hsz2, hp2⟩ := ih t1 hwf1
    refine ⟨t', ?_, hwf2, hsz2.trans hsz1, ?_⟩
    · simp only [HashTable.insertAllChains, h1]
      exact h2
    · refine hp2.trans ?_
      refine (List.Perm.append_left rest.flatten hp1).trans ?_
      simp only [List.flatten_cons, List.append_assoc]
      exact List.perm_append_comm_assoc _ _ _

theorem flatten_bucketsOf_perm (c : Nat) (hc : 0 < c) (rs : List Course) :
    ((bucketsOf c rs).flatten).Perm rs := by
  have hwf : HashTable.WF { nodes := bucketsOf c [], tableSize := c } :=
    ⟨length_bucketsOf c [], hc⟩
  obtain ⟨t', h1, _, _, h4⟩ := insertChain_perm _ hwf rs
  rw [insertChain_bucketsOf c hc [] rs] at h1
  cases h1
  simpa [bucketsOf_nil] using h4

theorem flatten_replicate_nil (c : Nat) :
    (List.replicate c ([] : List Course)).flatten = [] := by
  induction c with
  | zero => rfl
  | succ n ih => simp [List.replicate_succ, ih]

theorem new_eq (c : Nat) (hc : 0 < c) :
    HashTable.new c = .ok { nodes := List.replicate c [], tableSize := c } := by
  simp [HashTable.new, Nat.pos_iff_ne_zero.mp hc]

theorem new_WF (c : Nat) (hc : 0 < c) :
    HashTable.WF { nodes := List.replicate c [], tableSize := c } :=
  ⟨by simp, hc⟩

theorem bucketsOf_WF (c : Nat) (hc : 0 < c) (rs : List Course) :
    HashTable.WF { nodes := bucketsOf c rs, tableSize := c } :=
  ⟨length_bucketsOf c rs, hc⟩

theorem Search_Insert_self (t : HashTable) (hwf : t.WF) (r : Course) :
    ∃ t', t.Insert r = .ok t' ∧ t'.Search r.courseNumber = .ok (some r) := by
  have hlt : hashVal t.tableSize r.courseNumber < t.nodes.length := by
    rw [hwf.1]; exact hashVal_lt _ hwf.2 _
  have hI := Insert_eq t hwf r
  obtain ⟨hwf1, hsz1⟩ := Insert_WF t _ hwf r hI
  refine ⟨_, hI, ?_⟩
  rw [Search_eq _ hwf1]
  simp [List.getD_eq_getElem?_getD, List.getElem?_set, hlt, HashTable.searchChain]

theorem searchChain_bucketOf_eq_none (c : Nat) (rs : List Course) (k : Str) :
    HashTable.searchChain k (bucketOf c rs (hashVal c k)) = none
      ↔ ∀ r ∈ rs, r.courseNumber ≠ k := by
  rw [searchChain_eq_find, List.find?_eq_none]
  constructor
  · intro h r hr hk
    apply h r
    · simp [bucketOf, hr, hk]
    · simp [hk]
  · intro h r hr
    have : r ∈ rs := by
      simp only [bucketOf, List.mem_reverse, List.mem_filter] at hr
      exact hr.1
    simpa using h r this

/-! ## Claims about the store -/

/-- C1: in a store built from an empty store of capacity `c > 0` by any sequence of `Insert`
calls, `Search(r.courseNumber)` right after `Insert(r)` returns exactly `r`, whatever records
(with the same identifier or not) were stored before. -/
theorem C1_search_after_insert_returns_inserted (c : Nat) (hc : 0 < c) (rs : List Course)
    (r : Course) :
    ∃ t t', HashTable.build c rs = .ok t ∧ t.Insert r = .ok t' ∧
      t'.Search r.courseNumber = .ok (some r) := by
  obtain ⟨t', h1, h2⟩ := Search_Insert_self _ (bucketsOf_WF c hc rs) r
  exact ⟨_, t', build_eq c hc rs, h1, h2⟩

theorem C1_search_after_insert_returns_inserted_witness :
    0 < 3 ∧ ∃ t t', HashTable.build 3 [sampleFirst] = .ok t ∧ t.Insert sampleSecond = .ok t' ∧
      t'.Search sampleSecond.courseNumber = .ok (some sampleSecond) :=
  ⟨by decide, C1_search_after_insert_returns_inserted 3 (by decide) [sampleFirst] sampleSecond⟩

/-- C2: in a store built from an empty store of capacity `c > 0` by a sequence of `Insert`
calls, `Search(k)` returns normally, and it returns the null pointer if and only if no record
with identifier `k` was inserted. -/
theorem C2_search_absent_iff_never_inserted (c : Nat) (hc : 0 < c) (rs : List Course)
    (k : Str) :
    ∃ t res, HashTable.build c rs = .ok t ∧ t.Search k = .ok res ∧
      (res = none ↔ ∀ r ∈ rs, r.courseNumber ≠ k) := by
  refine ⟨_, _, build_eq c hc rs, Search_eq _ (bucketsOf_WF c hc rs) k, ?_⟩
  simp only [getD_bucketsOf c rs _ (hashVal_lt c hc k)]
  exact searchChain_bucketOf_eq_none c rs k

theorem C2_search_absent_iff_never_inserted_witness :
    0 < 3 ∧ ∃ t res, HashTable.build 3 [sampleFirst, sampleSecond] = .ok t ∧
      t.Search [67, 83] = .ok res ∧
      (res = none ↔ ∀ r ∈ [sampleFirst, sampleSecond], r.courseNumber ≠ [67, 83]) :=
  ⟨by decide,
    C2_search_absent_iff_never_inserted 3 (by decide) [sampleFirst, sampleSecond] [67, 83]⟩

/-- C3: after inserting any finite sequence of records into an empty store of capacity `c > 0`,
`GetAllCourses` is a permutation of the inserted sequence, so it has exactly as many records as
there were `Insert` calls. -/
theorem C3_enumeration_is_permutation_of_inserted (c : Nat) (hc : 0 < c) (rs : List Course) :
    ∃ t, HashTable.build c rs = .ok t ∧ t.GetAllCourses.Perm rs ∧
      t.GetAllCourses.length = rs.length := by
  refine ⟨_, build_eq c hc rs, ?_, ?_⟩
  · rw [GetAllCourses_eq]
    exact flatten_bucketsOf_perm c hc rs
  · rw [GetAllCourses_eq]
    exact (flatten_bucketsOf_perm c hc rs).length_eq

theorem C3_enumeration_is_permutation_of_inserted_witness :
    0 < 3 ∧ ∃ t, HashTable.build 3 [sampleFirst, sampleSecond] = .ok t ∧
      t.GetAllCourses.Perm [sampleFirst, sampleSecond] ∧
      t.GetAllCourses.length = [sampleFirst, sampleSecond].length :=
  ⟨by decide,
    C3_enumeration_is_permutation_of_inserted 3 (by decide) [sampleFirst, sampleSecond]⟩

/-- C4: for a table of size `c > 0` and any key, `hash` returns a value below `c`, and every
table of the same size returns the same value for that key. -/
theorem C4_hash_in_range_and_deterministic (t : HashTable) (hc : 0 < t.tableSize) (k : Str) :
    ∃ h, t.hash k = .ok h ∧ h < t.tableSize ∧
      ∀ t' : HashTable, t'.tableSize = t.tableSize → t'.hash k = .ok h := by
  refine ⟨_, hash_eq t hc k, hashVal_lt _ hc k, ?_⟩
  intro t' ht'
  rw [hash_eq t' (ht' ▸ hc), ht']

theorem C4_hash_in_range_and_deterministic_witness :
    0 < sampleTable.tableSize ∧ ∃ h, sampleTable.hash [67, 83] = .ok h ∧
      h < sampleTable.tableSize ∧
      ∀ t' : HashTable, t'.tableSize = sampleTable.tableSize → t'.hash [67, 83] = .ok h :=
  ⟨by decide, C4_hash_in_range_and_deterministic sampleTable (by decide) [67, 83]⟩

/-- C5: constructing with capacity 0 throws `invalid_argument`; constructing with any capacity
`c > 0`, the default 179 included, yields a store of `c` empty buckets whose `GetAllCourses`
is empty. -/
theorem C5_construction (c : Nat) (hc : 0 < c) :
    HashTable.new 0 = .error .invalidArgument ∧
    (∃ t, HashTable.new c = .ok t ∧ t.tableSize = c ∧ t.nodes.length = c ∧
      (∀ chain ∈ t.nodes, chain = []) ∧ t.GetAllCourses = []) ∧
    (∃ t, HashTable.new defaultSize = .ok t ∧ t.tableSize = 179 ∧ t.GetAllCourses = []) := by
  refine ⟨rfl, ⟨_, new_eq c hc, rfl, by simp, ?_, ?_⟩, ⟨_, new_eq 179 (by decide), rfl, ?_⟩⟩
  · intro chain h
    exact (List.mem_replicate.mp h).2
  · rw [GetAllCourses_eq]
    exact flatten_replicate_nil c
  · rw [GetAllCourses_eq]
    exact flatten_replicate_nil 179

theorem C5_construction_witness :
    0 < 7 ∧
    (HashTable.new 0 = .error .invalidArgument ∧
    (∃ t, HashTable.new 7 = .ok t ∧ t.tableSize = 7 ∧ t.nodes.length = 7 ∧
      (∀ chain ∈ t.nodes, chain = []) ∧ t.GetAllCourses = []) ∧
    (∃ t, HashTable.new defaultSize = .ok t ∧ t.tableSize = 179 ∧ t.GetAllCourses = [])) :=
  ⟨by decide, C5_construction 7 (by decide)⟩

/-- C6: after inserting `rs` in order into an empty store of capacity `c > 0`, `GetAllCourses`
is the concatenation, for `i = 0, ..., c - 1` in increasing order, of the records whose hash is
`i`, latest inserted first. -/
theorem C6_enumeration_order (c : Nat) (hc : 0 < c) (rs : List Course) :
    ∃ t, HashTable.build c rs = .ok t ∧
      t.GetAllCourses = (List.range c).flatMap
        (fun i => (rs.filter (fun r => t.hash r.courseNumber = .ok i)).reverse) := by
  refine ⟨_, build_eq c hc rs, ?_⟩
  rw [GetAllCourses_eq]
  simp only [bucketsOf, List.flatMap]
  congr 2
  funext i
  simp only [bucketOf]
  congr 1
  apply List.filter_congr
  intro r _
  have hh := hash_eq { nodes := List.map (bucketOf c rs) (List.range c), tableSize := c } hc
    r.courseNumber
  simp only [hh, Except.ok.injEq]

theorem C6_enumeration_order_witness :
    0 < 3 ∧ ∃ t, HashTable.build 3 [sampleFirst, sampleSecond] = .ok t ∧
      t.GetAllCourses = (List.range 3).flatMap
        (fun i => ([sampleFirst, sampleSecond].filter
          (fun r => t.hash r.courseNumber = .ok i)).reverse) :=
  ⟨by decide, C6_enumeration_order 3 (by decide) [sampleFirst, sampleSecond]⟩

/-- C7: the copy constructor applied to a store (as many buckets as `tableSize > 0`) returns a
store with the same bucket count whose `GetAllCourses` is a permutation of the one of the
source. -/
theorem C7_copy_keeps_size_and_entries (s : HashTable) (hwf : s.WF) :
    ∃ t, s.copy = .ok t ∧ t.tableSize = s.tableSize ∧ t.nodes.length = s.nodes.length ∧
      t.GetAllCourses.Perm s.GetAllCourses := by
  obtain ⟨t, h1, h2, h3, h4⟩ := insertAllChains_perm _ (new_WF s.tableSize hwf.2) s.nodes
  refine ⟨t, h1, h3, ?_, ?_⟩
  · rw [h2.1, h3, hwf.1]
  · rw [GetAllCourses_eq, GetAllCourses_eq]
    simpa using h4

theorem C7_copy_keeps_size_and_entries_witness :
    sampleTable.WF ∧ ∃ t, sampleTable.copy = .ok t ∧ t.tableSize = sampleTable.tableSize ∧
      t.nodes.length = sampleTable.nodes.length ∧
      t.GetAllCourses.Perm sampleTable.GetAllCourses :=
  ⟨⟨rfl, by decide⟩, C7_copy_keeps_size_and_entries sampleTable ⟨rfl, by decide⟩⟩

/-! ## Trimming -/

theorem rdropWhile_cons_eq (p : Byte → Bool) (ch : Byte) (rest : Str) :
    (ch :: rest).rdropWhile p
      = if rest.rdropWhile p = [] then (if p ch then [] else [ch])
        else ch :: rest.rdropWhile p := by
  induction rest using List.reverseRecOn with
  | nil => simp [List.rdropWhile_singleton]
  | append_singleton r x ih =>
    rw [← List.cons_append, List.rdropWhile_concat, List.rdropWhile_concat]
    by_cases hx : p x = true
    · simp only [hx, if_true]
      exact ih
    · simp [hx]

theorem find_first_not_of_eq (s : Str) :
    find_first_not_of s
      = if s.dropWhile isTrimChar = [] then none
        else some (s.takeWhile isTrimChar).length := by
  induction s with
  | nil => rfl
  | cons ch rest ih =>
    by_cases h : isTrimChar ch = true
    · simp only [find_first_not_of, h, if_true, ih, List.dropWhile_cons, List.takeWhile_cons]
      by_cases h2 : rest.dropWhile isTrimChar = []
      · simp [h2]
      · simp [h2]
    · simp [find_first_not_of, h, List.dropWhile_cons, List.takeWhile_cons]

theorem find_last_not_of_spec (t : Str) :
    match find_last_not_of t with
    | none => t.rdropWhile isTrimChar = []
    | some l => t.rdropWhile isTrimChar = t.take (l + 1) ∧ l < t.length := by
  induction t with
  | nil => simp [find_last_not_of]
  | cons ch rest ih =>
    rw [rdropWhile_cons_eq]
    cases hr : find_last_not_of rest with
    | some i =>
      rw [hr] at ih
      simp only [find_last_not_of, hr]
      obtain ⟨h1, h2⟩ := ih
      have hne : rest.rdropWhile isTrimChar ≠ [] := by
        rw [h1]
        cases rest with
        | nil => simp at h2
        | cons a b => simp
      rw [if_neg hne, h1]
      simp [h2]
    | none =>
      rw [hr] at ih
      simp only at ih
      simp only [find_last_not_of, hr, ih, if_true]
      by_cases h : isTrimChar ch = true
      · simp [h]
      · simp [h]

theorem find_last_not_of_append (pre t : Str) (hpre : ∀ ch ∈ pre, isTrimChar ch = true) :
    find_last_not_of (pre ++ t)
      = match find_last_not_of t with
        | none => none
        | some l => some (l + pre.length) := by
  induction pre with
  | nil => cases h : find_last_not_of t <;> simp [h]
  | cons ch rest ih =>
    have h1 : isTrimChar ch = true := hpre ch (by simp)
    have h2 := ih (fun c hc => hpre c (by simp [hc]))
    cases ht : find_last_not_of t with
    | none =>
      rw [ht] at h2
      simp [find_last_not_of, h2, h1]
    | some l =>
      rw [ht] at h2
      simp [find_last_not_of, h2, Nat.add_assoc]

/-- The function `trim` of the source removes exactly the leading and the trailing whitespace. -/
theorem trim_eq_specTrim (s : Str) : HashTable.trim s = specTrim s := by
  have hsplit := List.takeWhile_append_dropWhile isTrimChar s
  have hpre : ∀ ch ∈ s.takeWhile isTrimChar, isTrimChar ch = true :=
    fun ch hch => List.mem_takeWhile_imp hch
  have hlast := find_last_not_of_append (s.takeWhile isTrimChar) (s.dropWhile isTrimChar) hpre
  rw [hsplit] at hlast
  have hspec := find_last_not_of_spec (s.dropWhile isTrimChar)
  unfold HashTable.trim specTrim
  rw [find_first_not_of_eq, hlast]
  by_cases hnil : s.dropWhile isTrimChar = []
  · simp [hnil, List.rdropWhile]
  · rw [if_neg hnil]
    cases hl : find_last_not_of (s.dropWhile isTrimChar) with
    | none =>
      rw [hl] at hspec
      simp only at hspec
      have hall := List.rdropWhile_eq_nil_iff.mp hspec
      have hhead := List.head_dropWhile_not isTrimChar s hnil
      have := hall _ (List.head_mem hnil)
      simp [hhead] at this
    | some l =>
      rw [hl] at hspec
      simp only at hspec ⊢
      rw [hspec.1, substr]
      have hd : s.drop (s.takeWhile isTrimChar).length = s.dropWhile isTrimChar := by
        have := List.drop_left (s.takeWhile isTrimChar) (s.dropWhile isTrimChar)
        rwa [hsplit] at this
      rw [hd]
      congr 1
      omega

theorem specTrim_nil : specTrim [] = [] := by
  simp [specTrim, List.rdropWhile]

theorem specTrim_head_not_trimChar (s : Str) (h : specTrim s ≠ []) :
    isTrimChar ((specTrim s).head h) = false := by
  have hpre : specTrim s <+: s.dropWhile isTrimChar := List.rdropWhile_prefix _ _
  have hne : s.dropWhile isTrimChar ≠ [] := by
    intro h0
    rw [h0] at hpre
    exact h (List.prefix_nil.mp hpre)
  obtain ⟨u, hu⟩ := hpre
  have h1 := List.head_dropWhile_not isTrimChar s hne
  have h2 : (s.dropWhile isTrimChar).head hne = (specTrim s).head h := by
    simp only [← hu]
    exact List.head_append_of_ne_nil h
  rw [← h2]
  exact h1

theorem specTrim_getLast_not_trimChar (s : Str) (h : specTrim s ≠ []) :
    isTrimChar ((specTrim s).getLast h) = false := by
  have := List.rdropWhile_last_not isTrimChar (s.dropWhile isTrimChar) h
  simpa [specTrim] using this

/-! ## Reading fields and lines with `getline` -/

theorem splitOnByte_ne_nil (d : Byte) (s : Str) : splitOnByte d s ≠ [] := by
  induction s with
  | nil => simp [splitOnByte]
  | cons ch rest ih =>
    unfold splitOnByte
    by_cases h : ch = d
    · simp [h]
    · simp only [h, if_false]
      cases hs : splitOnByte d rest with
      | nil => simp
      | cons f fs => simp

theorem splitOnByte_of_dropWhile_nil (d : Byte) (s : Str)
    (h : s.dropWhile (fun ch => ch != d) = []) : splitOnByte d s = [s] := by
  induction s with
  | nil => rfl
  | cons ch rest ih =>
    rw [List.dropWhile_cons] at h
    by_cases hc : ch = d
    · simp [hc] at h
    · have hc' : (ch != d) = true := by simpa using hc
      rw [if_pos hc'] at h
      simp [splitOnByte, hc, ih h]

theorem splitOnByte_of_dropWhile_cons (d : Byte) (s : Str) (x : Byte) (rest : Str)
    (h : s.dropWhile (fun ch => ch != d) = x :: rest) :
    splitOnByte d s = s.takeWhile (fun ch => ch != d) :: splitOnByte d rest := by
  induction s with
  | nil => simp at h
  | cons ch r ih =>
    rw [List.dropWhile_cons] at h
    by_cases hc : ch = d
    · have hc' : ¬ (ch != d) = true := by simpa using hc
      rw [if_neg hc'] at h
      cases h
      simp [splitOnByte, List.takeWhile_cons, hc]
    · have hc' : (ch != d) = true := by simpa using hc
      rw [if_pos hc'] at h
      simp [splitOnByte, hc, ih h, List.takeWhile_cons, hc']

theorem length_lt_of_dropWhile_cons (p : Byte → Bool) (s : Str) (x : Byte) (rest : Str)
    (h : s.dropWhile p = x :: rest) : rest.length < s.length := by
  have h1 := congrArg List.length (List.takeWhile_append_dropWhile p s)
  rw [h] at h1
  simp only [List.length_append, List.length_cons] at h1
  omega

theorem getline_eof (buf : Str) (f : Bool) (d : Byte) :
    (getline { buf := buf, eof := true, fail := f } d).2 = none := by
  simp [getline]

theorem getline_nil (d : Byte) :
    getline (IStream.ofStr []) d = ({ buf := [], eof := true, fail := true }, none) := by
  simp [getline, IStream.ofStr]

theorem getline_of_dropWhile_nil (d : Byte) (s : Str) (hs : s ≠ [])
    (h : s.dropWhile (fun ch => ch != d) = []) :
    getline (IStream.ofStr s) d = ({ buf := [], eof := true, fail := false }, some s) := by
  have ht : s.takeWhile (fun ch => ch != d) = s := by
    have := List.takeWhile_append_dropWhile (fun ch => ch != d) s
    rwa [h, List.append_nil] at this
  simp [getline, IStream.ofStr, h, ht, hs]

theorem getline_of_dropWhile_cons (d : Byte) (s : Str) (x : Byte) (rest : Str)
    (h : s.dropWhile (fun ch => ch != d) = x :: rest) :
    getline (IStream.ofStr s) d
      = (IStream.ofStr rest, some (s.takeWhile (fun ch => ch != d))) := by
  simp [getline, IStream.ofStr, h]

theorem getlineFields_nil (d : Byte) : getlineFields d [] = [] := by
  simp [getlineFields, splitOnByte, dropLastIfEmpty]

theorem getlineFields_of_dropWhile_nil (d : Byte) (s : Str) (hs : s ≠ [])
    (h : s.dropWhile (fun ch => ch != d) = []) : getlineFields d s = [s] := by
  simp [getlineFields, splitOnByte_of_dropWhile_nil d s h, dropLastIfEmpty, hs]

theorem dropLastIfEmpty_cons (f : Str) (fs : List Str) (h : fs ≠ []) :
    dropLastIfEmpty (f :: fs) = f :: dropLastIfEmpty fs := by
  cases fs with
  | nil => exact absurd rfl h
  | cons g gs => rfl

theorem getlineFields_of_dropWhile_cons (d : Byte) (s : Str) (x : Byte) (rest : Str)
    (h : s.dropWhile (fun ch => ch != d) = x :: rest) :
    getlineFields d s = s.takeWhile (fun ch => ch != d) :: getlineFields d rest := by
  simp only [getlineFields, splitOnByte_of_dropWhile_cons d s x rest h]
  exact dropLastIfEmpty_cons _ _ (splitOnByte_ne_nil d rest)

theorem readLines_at_eof (fuel : Nat) (st : LoadState) :
    readLines (fuel + 1) { buf := [], eof := true, fail := false } st = .ok st := by
  simp [readLines, getline]

theorem readLines_eq (fuel : Nat) (buf : Str) (st : LoadState) (hfuel : buf.length < fuel) :
    readLines fuel (IStream.ofStr buf) st = processLines st (getlineFields newline buf) := by
  induction fuel generalizing buf st with
  | zero => omega
  | succ k ih =>
    unfold readLines
    cases hd : buf.dropWhile (fun ch => ch != newline) with
    | nil =>
      by_cases hb : buf = []
      · subst hb
        simp [getline_nil, getlineFields_nil, processLines]
      · rw [getline_of_dropWhile_nil newline buf hb hd,
          getlineFields_of_dropWhile_nil newline buf hb hd]
        simp only [processLines]
        cases processLine st buf with
        | error e => rfl
        | ok st' =>
          have hk : 0 < k := by
            have : 0 < buf.length := List.length_pos.mpr hb
            omega
          obtain ⟨j, rfl⟩ : ∃ j, k = j + 1 := ⟨k - 1, by omega⟩
          exact readLines_at_eof j st'
    | cons x rest =>
      rw [getline_of_dropWhile_cons newline buf x rest hd,
        getlineFields_of_dropWhile_cons newline buf x rest hd]
      simp only [processLines]
      cases processLine st (buf.takeWhile (fun ch => ch != newline)) with
      | error e => rfl
      | ok st' =>
        have := length_lt_of_dropWhile_cons _ buf x rest hd
        exact ih rest st' (by omega)

theorem collectPrerequisites_at_eof (fuel : Nat) (acc : List Str) :
    collectPrerequisites (fuel + 1) { buf := [], eof := true, fail := false } acc = .ok acc := by
  simp [collectPrerequisites, getline]

theorem collectPrerequisites_eq (fuel : Nat) (buf : Str) (acc : List Str)
    (hfuel : buf.length < fuel) :
    collectPrerequisites fuel (IStream.ofStr buf) acc
      = .ok (acc ++ ((getlineFields comma buf).map specTrim).filter
          (fun p => decide (p ≠ []))) := by
  induction fuel generalizing buf acc with
  | zero => omega
  | succ k ih =>
    unfold collectPrerequisites
    cases hd : buf.dropWhile (fun ch => ch != comma) with
    | nil =>
      by_cases hb : buf = []
      · subst hb
        simp [getline_nil, getlineFields_nil]
      · rw [getline_of_dropWhile_nil comma buf hb hd,
          getlineFields_of_dropWhile_nil comma buf hb hd]
        have hk : 0 < k := by
          have : 0 < buf.length := List.length_pos.mpr hb
          omega
        obtain ⟨j, rfl⟩ : ∃ j, k = j + 1 := ⟨k - 1, by omega⟩
        simp only [collectPrerequisites_at_eof, trim_eq_specTrim]
        by_cases ht : specTrim buf = [] <;> simp [ht]
    | cons x rest =>
      rw [getline_of_dropWhile_cons comma buf x rest hd,
        getlineFields_of_dropWhile_cons comma buf x rest hd]
      have := length_lt_of_dropWhile_cons _ buf x rest hd
      simp only [trim_eq_specTrim]
      rw [ih rest _ (by omega)]
      by_cases ht : specTrim (buf.takeWhile (fun ch => ch != comma)) = [] <;> simp [ht]

theorem filter_map_dropLastIfEmpty (l : List Str) :
    ((dropLastIfEmpty l).map specTrim).filter (fun p => decide (p ≠ []))
      = (l.map specTrim).filter (fun p => decide (p ≠ [])) := by
  induction l with
  | nil => rfl
  | cons f fs ih =>
    cases fs with
    | nil =>
      by_cases hf : f = []
      · simp [dropLastIfEmpty, hf, specTrim_nil]
      · simp [dropLastIfEmpty, hf]
    | cons g gs =>
      rw [dropLastIfEmpty_cons f (g :: gs) (by simp), List.map_cons, List.filter_cons, ih]
      simp [List.filter_cons]

theorem processLine_eq (st : LoadState) (line : Str) :
    processLine st line
      = if specInvalid line then .ok st else storeCourse st (specCourse line) := by
  by_cases hl : line = []
  · simp [processLine, specInvalid, hl]
  unfold processLine
  rw [if_neg hl]
  cases hd : line.dropWhile (fun ch => ch != comma) with
  | nil =>
    have hsplit := splitOnByte_of_dropWhile_nil comma line hd
    rw [getline_of_dropWhile_nil comma line hl hd]
    simp [getline, specInvalid, specField, hsplit, emptyOrMissing]
  | cons x rest =>
    have hsplit := splitOnByte_of_dropWhile_cons comma line x rest hd
    rw [getline_of_dropWhile_cons comma line x rest hd]
    simp only [trim_eq_specTrim]
    cases hd2 : rest.dropWhile (fun ch => ch != comma) with
    | nil =>
      have hsplit2 := splitOnByte_of_dropWhile_nil comma rest hd2
      by_cases hr : rest = []
      · subst hr
        simp [getline_nil, specInvalid, specField, hsplit, hsplit2, emptyOrMissing,
          specTrim_nil]
      · rw [getline_of_dropWhile_nil comma rest hr hd2]
        simp only [List.length_nil, Nat.zero_add, collectPrerequisites_at_eof]
        by_cases hv : specTrim (line.takeWhile (fun ch => ch != comma)) = [] ∨
            specTrim rest = []
        · rw [if_pos hv]
          have : specInvalid line = true := by
            rcases hv with hv | hv <;>
              simp [specInvalid, specField, hsplit, hsplit2, emptyOrMissing, hv]
          simp [this]
        · rw [if_neg hv]
          have hinv : specInvalid line = false := by
            push_neg at hv
            simp [specInvalid, specField, hsplit, hsplit2, emptyOrMissing, hv.1, hv.2, hl]
          have hc : specCourse line
              = { courseNumber := specTrim (line.takeWhile (fun ch => ch != comma)),
                  courseTitle := specTrim rest, prerequisites := [] } := by
            simp [specCourse, specField, specPrerequisites, hsplit, hsplit2]
          simp only [hinv, hc, storeCourse, existenceRecord]
          rfl
    | cons y rest2 =>
      have hsplit2 := splitOnByte_of_dropWhile_cons comma rest y rest2 hd2
      rw [getline_of_dropWhile_cons comma rest y rest2 hd2]
      dsimp only
      by_cases hv : specTrim (line.takeWhile (fun ch => ch != comma)) = [] ∨
          specTrim (rest.takeWhile (fun ch => ch != comma)) = []
      · rw [if_pos hv]
        have : specInvalid line = true := by
          rcases hv with hv | hv <;>
            simp [specInvalid, specField, hsplit, hsplit2, emptyOrMissing, hv]
        simp [this]
      · rw [if_neg hv]
        have hinv : specInvalid line = false := by
          push_neg at hv
          simp [specInvalid, specField, hsplit, hsplit2, emptyOrMissing, hv.1, hv.2, hl]
        have hc : specCourse line
            = { courseNumber := specTrim (line.takeWhile (fun ch => ch != comma)),
                courseTitle := specTrim (rest.takeWhile (fun ch => ch != comma)),
                prerequisites := ((getlineFields comma rest2).map specTrim).filter
                  (fun p => decide (p ≠ [])) } := by
          simp only [specCourse, specField, specPrerequisites, hsplit, hsplit2, getlineFields,
            filter_map_dropLastIfEmpty]
          simp
        have hcol := collectPrerequisites_eq (rest2.length + 1) rest2 [] (by omega)
        simp only [IStream.ofStr] at hcol ⊢
        simp only [hcol, List.nil_append, hinv, hc, storeCourse, existenceRecord]
        rfl

/-! ## One ingestion pass -/

theorem existenceTable_WF (acc : List Course) : (existenceTable acc).WF :=
  bucketsOf_WF defaultSize (by decide) _

theorem Search_existenceTable (acc : List Course) (k : Str) :
    ∃ res, (existenceTable acc).Search k = .ok res ∧
      (res = none ↔ acc.any (fun a => decide (a.courseNumber = k)) = false) := by
  refine ⟨_, Search_eq _ (existenceTable_WF acc) k, ?_⟩
  have hlt : hashVal defaultSize k < defaultSize := hashVal_lt _ (by decide) k
  simp only [existenceTable, getD_bucketsOf _ _ _ hlt]
  rw [searchChain_bucketOf_eq_none]
  simp [existenceRecord]

theorem Insert_existenceTable (acc : List Course) (r : Course) :
    (existenceTable acc).Insert (existenceRecord r) = .ok (existenceTable (acc ++ [r])) := by
  simp only [existenceTable, List.map_append, List.map_cons, List.map_nil]
  exact Insert_bucketsOf defaultSize (by decide) _ _

theorem storeCourse_eq (t : HashTable) (hwf : t.WF) (acc : List Course) (r : Course) :
    ∃ t1, t.Insert r = .ok t1 ∧ t1.WF ∧
      storeCourse { coursesTable := t, courseExistenceTable := existenceTable acc } r
        = if acc.any (fun a => decide (a.courseNumber = r.courseNumber)) then
            .ok { coursesTable := t, courseExistenceTable := existenceTable acc }
          else .ok { coursesTable := t1, courseExistenceTable := existenceTable (acc ++ [r]) } := by
  have hI := Insert_eq t hwf r
  refine ⟨_, hI, (Insert_WF t _ hwf r hI).1, ?_⟩
  obtain ⟨res, h1, h2⟩ := Search_existenceTable acc r.courseNumber
  unfold storeCourse
  simp only [h1, hI, Insert_existenceTable]
  cases res with
  | none =>
    have := h2.mp rfl
    simp [this]
  | some c =>
    have : acc.any (fun a => decide (a.courseNumber = r.courseNumber)) = true := by
      cases h : acc.any (fun a => decide (a.courseNumber = r.courseNumber)) with
      | true => rfl
      | false => exact absurd (h2.mpr h) (by simp)
    simp [this]

theorem processLines_spec (lines : List Str) (acc : List Course) (t : HashTable) (hwf : t.WF) :
    ∃ t', t.insertChain (specInserts acc lines) = .ok t' ∧ t'.WF ∧
      processLines { coursesTable := t, courseExistenceTable := existenceTable acc } lines
        = .ok { coursesTable := t',
                courseExistenceTable := existenceTable (acc ++ specInserts acc lines) } := by
  induction lines generalizing acc t with
  | nil => exact ⟨t, rfl, hwf, by simp [processLines, specInserts]⟩
  | cons line rest ih =>
    unfold processLines specInserts specSkipped
    rw [processLine_eq]
    by_cases hinv : specInvalid line = true
    · simp only [hinv, if_true, Bool.true_or]
      exact ih acc t hwf
    · have hinv' : specInvalid line = false := by simpa using hinv
      obtain ⟨t1, hI, hwf1, hst⟩ := storeCourse_eq t hwf acc (specCourse line)
      simp only [hinv', Bool.false_or, hst]
      by_cases hdup : acc.any
          (fun a => decide (a.courseNumber = (specCourse line).courseNumber)) = true
      · simp only [hdup, if_true]
        exact ih acc t hwf
      · simp only [hdup]
        obtain ⟨t', h1, h2, h3⟩ := ih (acc ++ [specCourse line]) t1 hwf1
        refine ⟨t', ?_, h2, ?_⟩
        · simp only [HashTable.insertChain, hI]
          exact h1
        · simpa using h3

theorem specInserts_dropLastIfEmpty (acc : List Course) (lines : List Str) :
    specInserts acc (dropLastIfEmpty lines) = specInserts acc lines := by
  induction lines generalizing acc with
  | nil => rfl
  | cons f fs ih =>
    cases fs with
    | nil =>
      by_cases hf : f = []
      · simp [dropLastIfEmpty, hf, specInserts, specSkipped, specInvalid]
      · simp [dropLastIfEmpty, hf]
    | cons g gs =>
      rw [dropLastIfEmpty_cons f (g :: gs) (by simp)]
      rw [specInserts, specInserts, ih, ih]

theorem loadCourseData_eq (text : Str) (t : HashTable) (hwf : t.WF) :
    ∃ t', loadCourseData (some text) t = .ok (true, t') ∧ t'.WF ∧
      t.insertChain (specInserts [] (specLines text)) = .ok t' := by
  obtain ⟨t', h1, h2, h3⟩ := processLines_spec (getlineFields newline text) [] t hwf
  have hE : HashTable.new defaultSize = .ok (existenceTable []) := by
    rw [new_eq defaultSize (by decide)]
    simp [existenceTable, bucketsOf_nil]
  refine ⟨t', ?_, h2, ?_⟩
  · simp only [loadCourseData, hE, readLines_eq (text.length + 1) text _ (by omega), h3]
  · rw [← h1, getlineFields, specInserts_dropLastIfEmpty, specLines]

/-! ## Claims about ingestion -/

/-- C8: one ingestion pass over a text, into any store, returns `true` and leaves the store in
the state reached by the `Insert` calls of `specInserts`, in order: no `Insert` for a line that
is empty, or whose trimmed identifier or title is empty or missing, or whose trimmed identifier
is that of an earlier accepted line of the pass, and exactly one `Insert`, of the record with
that identifier and title, for every other line; no line stops the pass. Line by line: when
the existence table holds the records accepted so far, the loop body leaves both tables as they
are for a skipped line, and makes one `Insert` into each for any other line. -/
theorem C8_ingestion_skips_exactly_invalid_and_duplicate_lines (text : Str) (t : HashTable)
    (hwf : t.WF) :
    (∃ t', loadCourseData (some text) t = .ok (true, t') ∧
      t.insertChain (specInserts [] (specLines text)) = .ok t') ∧
    ∀ (accepted : List Course) (line : Str),
      ∃ e, HashTable.build defaultSize (accepted.map existenceRecord) = .ok e ∧
        (specSkipped accepted line = true →
          processLine { coursesTable := t, courseExistenceTable := e } line
            = .ok { coursesTable := t, courseExistenceTable := e }) ∧
        (specSkipped accepted line = false →
          ∃ t1 e1, t.Insert (specCourse line) = .ok t1 ∧
            e.Insert (existenceRecord (specCourse line)) = .ok e1 ∧
            processLine { coursesTable := t, courseExistenceTable := e } line
              = .ok { coursesTable := t1, courseExistenceTable := e1 }) := by
  obtain ⟨t', h1, _, h3⟩ := loadCourseData_eq text t hwf
  refine ⟨⟨t', h1, h3⟩, ?_⟩
  intro accepted line
  refine ⟨existenceTable accepted, build_eq defaultSize (by decide) _, ?_, ?_⟩
  · intro hs
    rw [processLine_eq]
    by_cases hinv : specInvalid line = true
    · simp [hinv]
    · obtain ⟨t1, _, _, hst⟩ := storeCourse_eq t hwf accepted (specCourse line)
      have hdup : accepted.any
          (fun a => decide (a.courseNumber = (specCourse line).courseNumber)) = true := by
        simpa [specSkipped, hinv] using hs
      simp only [hinv, Bool.false_eq_true, if_false, hst, hdup, if_true]
  · intro hs
    have hs' : specInvalid line = false ∧ accepted.any
        (fun a => decide (a.courseNumber = (specCourse line).courseNumber)) = false := by
      simpa [specSkipped] using hs
    obtain ⟨t1, hI, _, hst⟩ := storeCourse_eq t hwf accepted (specCourse line)
    refine ⟨t1, existenceTable (accepted ++ [specCourse line]), hI,
      Insert_existenceTable accepted _, ?_⟩
    rw [processLine_eq]
    simp only [hs'.1, hst, hs'.2, Bool.false_eq_true, if_false]

theorem C8_ingestion_skips_exactly_invalid_and_duplicate_lines_witness :
    sampleTable.WF ∧
    ((∃ t', loadCourseData (some sampleText) sampleTable = .ok (true, t') ∧
      sampleTable.insertChain (specInserts [] (specLines sampleText)) = .ok t') ∧
    ∀ (accepted : List Course) (line : Str),
      ∃ e, HashTable.build defaultSize (accepted.map existenceRecord) = .ok e ∧
        (specSkipped accepted line = true →
          processLine { coursesTable := sampleTable, courseExistenceTable := e } line
            = .ok { coursesTable := sampleTable, courseExistenceTable := e }) ∧
        (specSkipped accepted line = false →
          ∃ t1 e1, sampleTable.Insert (specCourse line) = .ok t1 ∧
            e.Insert (existenceRecord (specCourse line)) = .ok e1 ∧
            processLine { coursesTable := sampleTable, courseExistenceTable := e } line
              = .ok { coursesTable := t1, courseExistenceTable := e1 })) :=
  ⟨⟨rfl, by decide⟩,
    C8_ingestion_skips_exactly_invalid_and_duplicate_lines sampleText sampleTable
      ⟨rfl, by decide⟩⟩

/-- C9: when processing a line stores a record (the caller's table changes), that record is
the argument of the one `Insert` made, and its prerequisites are the comma-separated fields of
the line after the second one, each trimmed of surrounding whitespace, the empty ones removed,
in their order; so each of them is non-empty and neither starts nor ends with whitespace. -/
theorem C9_prerequisites_of_stored_record (st : LoadState) (line : Str)
    (hT : st.coursesTable.WF) (hE : st.courseExistenceTable.WF) :
    ∃ st', processLine st line = .ok st' ∧
      (st'.coursesTable ≠ st.coursesTable →
        ∃ r, st.coursesTable.Insert r = .ok st'.coursesTable ∧
          r.prerequisites = (((splitOnByte comma line).drop 2).map specTrim).filter
            (fun p => decide (p ≠ [])) ∧
          ∀ p ∈ r.prerequisites, ∃ h : p ≠ [],
            isTrimChar (p.head h) = false ∧ isTrimChar (p.getLast h) = false) := by
  rw [processLine_eq]
  by_cases hinv : specInvalid line = true
  · exact ⟨st, by simp [hinv], fun h => absurd rfl h⟩
  · simp only [hinv, if_false]
    have hI := Insert_eq st.coursesTable hT (specCourse line)
    have hS := Search_eq st.courseExistenceTable hE (specCourse line).courseNumber
    have hIE := Insert_eq st.courseExistenceTable hE (existenceRecord (specCourse line))
    unfold storeCourse
    rw [hS]
    cases HashTable.searchChain (specCourse line).courseNumber
        (st.courseExistenceTable.nodes.getD
          (hashVal st.courseExistenceTable.tableSize (specCourse line).courseNumber) []) with
    | some c => exact ⟨st, rfl, fun h => absurd rfl h⟩
    | none =>
      simp only [hI, hIE]
      refine ⟨_, rfl, fun _ => ⟨specCourse line, hI, rfl, ?_⟩⟩
      intro p hp
      simp only [specCourse, specPrerequisites, List.mem_filter, List.mem_map] at hp
      obtain ⟨⟨f, _, hf⟩, hne⟩ := hp
      have hne' : p ≠ [] := by simpa using hne
      subst hf
      exact ⟨hne', specTrim_head_not_trimChar f hne', specTrim_getLast_not_trimChar f hne'⟩

theorem C9_prerequisites_of_stored_record_witness :
    sampleTable.WF ∧ (existenceTable []).WF ∧
    ∃ st', processLine
        { coursesTable := sampleTable, courseExistenceTable := existenceTable [] } sampleLine
        = .ok st' ∧
      (st'.coursesTable ≠ sampleTable →
        ∃ r, sampleTable.Insert r = .ok st'.coursesTable ∧
          r.prerequisites = (((splitOnByte comma sampleLine).drop 2).map specTrim).filter
            (fun p => decide (p ≠ [])) ∧
          ∀ p ∈ r.prerequisites, ∃ h : p ≠ [],
            isTrimChar (p.head h) = false ∧ isTrimChar (p.getLast h) = false) :=
  ⟨⟨rfl, by decide⟩, existenceTable_WF [],
    C9_prerequisites_of_stored_record
      { coursesTable := sampleTable, courseExistenceTable := existenceTable [] } sampleLine
      ⟨rfl, by decide⟩ (existenceTable_WF [])⟩

/-! ## Comparison of strings and the sorted listing -/

theorem strLt_irrefl (a : Str) : strLt a a = false := by
  induction a with
  | nil => rfl
  | cons x xs ih => simp [strLt, ih]

theorem strLt_trans (a b c : Str) (h1 : strLt a b = true) (h2 : strLt b c = true) :
    strLt a c = true := by
  induction a generalizing b c with
  | nil =>
    cases b with
    | nil => simp [strLt] at h1
    | cons y ys =>
      cases c with
      | nil => simp [strLt] at h2
      | cons z zs => rfl
  | cons x xs ih =>
    cases b with
    | nil => simp [strLt] at h1
    | cons y ys =>
      cases c with
      | nil => simp [strLt] at h2
      | cons z zs =>
        simp only [strLt, Bool.or_eq_true, Bool.and_eq_true, decide_eq_true_eq] at h1 h2 ⊢
        rcases h1 with h1 | ⟨h1, h1'⟩
        · rcases h2 with h2 | ⟨h2, _⟩
          · exact Or.inl (lt_trans h1 h2)
          · exact Or.inl (h2 ▸ h1)
        · rcases h2 with h2 | ⟨h2, h2'⟩
          · exact Or.inl (h1 ▸ h2)
          · exact Or.inr ⟨h1.trans h2, ih ys zs h1' h2'⟩

theorem strLt_asymm (a b : Str) (h : strLt a b = true) : strLt b a = false := by
  cases hba : strLt b a with
  | false => rfl
  | true =>
    have := strLt_trans a b a h hba
    rw [strLt_irrefl] at this
    exact absurd this (by simp)

theorem strLt_of_ne_of_not_gt (a b : Str) (hne : a ≠ b) (h : strLt b a = false) :
    strLt a b = true := by
  induction a generalizing b with
  | nil =>
    cases b with
    | nil => exact absurd rfl hne
    | cons y ys => rfl
  | cons x xs ih =>
    cases b with
    | nil => simp [strLt] at h
    | cons y ys =>
      simp only [strLt, Bool.or_eq_false_iff, Bool.and_eq_false_imp, decide_eq_false_iff_not,
        decide_eq_true_eq] at h
      simp only [strLt, Bool.or_eq_true, Bool.and_eq_true, decide_eq_true_eq]
      rcases lt_trichotomy x y with hxy | hxy | hxy
      · exact Or.inl hxy
      · subst hxy
        refine Or.inr ⟨rfl, ih ys ?_ (h.2 rfl)⟩
        intro hxs
        exact hne (by rw [hxs])
      · exact absurd hxy h.1

theorem byCourseNumber_total (a b : Course) :
    byCourseNumber b a = false ∨ byCourseNumber a b = false := by
  cases h : byCourseNumber b a with
  | false => exact Or.inl rfl
  | true => exact Or.inr (strLt_asymm _ _ h)

theorem byCourseNumber_trans (a b c : Course) (h1 : byCourseNumber b a = false)
    (h2 : byCourseNumber c b = false) : byCourseNumber c a = false := by
  unfold byCourseNumber at *
  cases hca : strLt c.courseNumber a.courseNumber with
  | false => rfl
  | true =>
    by_cases hab : a.courseNumber = b.courseNumber
    · rw [hab] at hca
      rw [hca] at h2
      exact absurd h2 (by simp)
    · have := strLt_trans _ _ _ hca (strLt_of_ne_of_not_gt _ _ hab h1)
      rw [this] at h2
      exact absurd h2 (by simp)

theorem stdSort_perm (l : List Course) : (stdSort byCourseNumber l).Perm l :=
  List.perm_insertionSort _ l

theorem stdSort_sorted (l : List Course) :
    (stdSort byCourseNumber l).Pairwise (fun a b => byCourseNumber b a = false) :=
  @List.sorted_insertionSort Course (fun a b => byCourseNumber b a = false) _
    ⟨byCourseNumber_total⟩ ⟨byCourseNumber_trans⟩ l

theorem mem_specInserts (lines : List Str) (acc : List Course) (r : Course) :
    r ∈ specInserts acc lines ↔
      (∀ a ∈ acc, a.courseNumber ≠ r.courseNumber) ∧
      ∃ pre post, (lines.filter (fun line => !specInvalid line)).map specCourse
          = pre ++ r :: post ∧ ∀ a ∈ pre, a.courseNumber ≠ r.courseNumber := by
  induction lines generalizing acc with
  | nil => simp [specInserts]
  | cons line rest ih =>
    unfold specInserts specSkipped
    by_cases hinv : specInvalid line = true
    · simp only [hinv, Bool.true_or, if_true, List.filter_cons, Bool.not_true]
      exact ih acc
    · have hinv' : specInvalid line = false := by simpa using hinv
      simp only [hinv', Bool.false_or, List.filter_cons, Bool.not_false, if_true, List.map_cons]
      by_cases hdup : acc.any
          (fun a => decide (a.courseNumber = (specCourse line).courseNumber)) = true
      · simp only [hdup, if_true]
        rw [ih acc]
        obtain ⟨a0, ha0, hid⟩ : ∃ a ∈ acc, a.courseNumber = (specCourse line).courseNumber := by
          simpa using hdup
        constructor
        · rintro ⟨h1, pre, post, h2, h3⟩
          refine ⟨h1, specCourse line :: pre, post, by simp [h2], ?_⟩
          intro a ha
          rcases List.mem_cons.mp ha with ha | ha
          · rw [ha, ← hid]
            exact h1 a0 ha0
          · exact h3 a ha
        · rintro ⟨h1, pre, post, h2, h3⟩
          refine ⟨h1, ?_⟩
          cases pre with
          | nil =>
            simp only [List.nil_append, List.cons.injEq] at h2
            exact absurd (h2.1 ▸ hid) (h1 a0 ha0)
          | cons x xs =>
            simp only [List.cons_append, List.cons.injEq] at h2
            exact ⟨xs, post, h2.2, fun a ha => h3 a (List.mem_cons_of_mem _ ha)⟩
      · have hnd : ∀ a ∈ acc, a.courseNumber ≠ (specCourse line).courseNumber := by
          simpa using hdup
        simp only [hdup, Bool.false_eq_true, if_false, List.mem_cons]
        rw [ih (acc ++ [specCourse line])]
        constructor
        · rintro (h | ⟨h1, pre, post, h2, h3⟩)
          · subst h
            exact ⟨hnd, [], _, rfl, by simp⟩
          · refine ⟨fun a ha => h1 a (by simp [ha]), specCourse line :: pre, post,
              by simp [h2], ?_⟩
            intro a ha
            rcases List.mem_cons.mp ha with ha | ha
            · rw [ha]
              exact h1 _ (by simp)
            · exact h3 a ha
        · rintro ⟨h1, pre, post, h2, h3⟩
          cases pre with
          | nil =>
            simp only [List.nil_append, List.cons.injEq] at h2
            exact Or.inl h2.1.symm
          | cons x xs =>
            simp only [List.cons_append, List.cons.injEq] at h2
            right
            refine ⟨?_, xs, post, h2.2, fun a ha => h3 a (List.mem_cons_of_mem _ ha)⟩
            intro a ha
            rcases List.mem_append.mp ha with ha | ha
            · exact h1 a ha
            · have : a = specCourse line := by simpa using ha
              rw [this, h2.1]
              exact h3 x (by simp)

theorem specInserts_pairwise (lines : List Str) (acc : List Course) :
    (specInserts acc lines).Pairwise (fun a b => a.courseNumber ≠ b.courseNumber) := by
  induction lines generalizing acc with
  | nil => simp [specInserts]
  | cons line rest ih =>
    unfold specInserts
    by_cases hs : specSkipped acc line = true
    · simp only [hs, if_true]
      exact ih acc
    · simp only [hs, Bool.false_eq_true, if_false]
      refine List.Pairwise.cons ?_ (ih _)
      intro b hb
      have := ((mem_specInserts rest _ b).mp hb).1 (specCourse line) (by simp)
      exact this

theorem pairwise_strict_of_sorted_of_distinct (l : List Course)
    (h1 : l.Pairwise (fun a b => byCourseNumber b a = false))
    (h2 : l.Pairwise (fun a b => a.courseNumber ≠ b.courseNumber)) :
    l.Pairwise (fun a b => strLt a.courseNumber b.courseNumber = true) := by
  refine (h1.and h2).imp ?_
  rintro a b ⟨h, hne⟩
  exact strLt_of_ne_of_not_gt _ _ hne h

/-- C10: after ingesting any text into an empty store, the sequence that `printCourseList`
prints is strictly increasing in the identifier under lexicographic comparison, and a record is
in it exactly when it is a valid record of the text that no earlier valid record shares its
identifier with; any other arrangement of the enumeration in which no record compares less than
an earlier one is that same sequence. -/
theorem C10_sorted_listing_round_trip (c : Nat) (hc : 0 < c) (text : Str) :
    ∃ t0 t, HashTable.new c = .ok t0 ∧ loadCourseData (some text) t0 = .ok (true, t) ∧
      (printCourseList t).Pairwise
        (fun a b => strLt a.courseNumber b.courseNumber = true) ∧
      (∀ r, r ∈ printCourseList t ↔
        ∃ pre post, specValidRecords text = pre ++ r :: post ∧
          ∀ a ∈ pre, a.courseNumber ≠ r.courseNumber) ∧
      (∀ out : List Course, out.Perm t.GetAllCourses →
        out.Pairwise (fun a b => byCourseNumber b a = false) → out = printCourseList t) := by
  obtain ⟨t, h1, _, h3⟩ := loadCourseData_eq text _ (new_WF c hc)
  obtain ⟨t', h4, _, _, h5⟩ := insertChain_perm _ (new_WF c hc)
    (specInserts [] (specLines text))
  rw [h3] at h4
  cases h4
  have hperm : t.GetAllCourses.Perm (specInserts [] (specLines text)) := by
    rw [GetAllCourses_eq]
    simpa [flatten_replicate_nil] using h5
  have hsym : ∀ {x y : Course}, x.courseNumber ≠ y.courseNumber →
      y.courseNumber ≠ x.courseNumber := fun h => Ne.symm h
  have hdist : ∀ l : List Course, l.Perm t.GetAllCourses →
      l.Pairwise (fun a b => a.courseNumber ≠ b.courseNumber) := fun l hl =>
    ((hl.trans hperm).pairwise_iff hsym).mpr (specInserts_pairwise _ _)
  have hstrict := pairwise_strict_of_sorted_of_distinct _
    (stdSort_sorted t.GetAllCourses) (hdist _ (stdSort_perm _))
  refine ⟨_, t, new_eq c hc, h1, hstrict, ?_, ?_⟩
  · intro r
    rw [printCourseList, ((stdSort_perm t.GetAllCourses).trans hperm).mem_iff, mem_specInserts]
    simp [specValidRecords]
  · intro out ho hs
    have hso := pairwise_strict_of_sorted_of_distinct out hs (hdist out ho)
    have : IsAntisymm Course (fun a b => strLt a.courseNumber b.courseNumber = true) :=
      ⟨fun a b hab hba => by
        rw [strLt_asymm _ _ hab] at hba
        exact absurd hba (by simp)⟩
    exact List.eq_of_perm_of_sorted (ho.trans (stdSort_perm _).symm) hso hstrict

theorem C10_sorted_listing_round_trip_witness :
    0 < 179 ∧
    ∃ t0 t, HashTable.new 179 = .ok t0 ∧ loadCourseData (some sampleText) t0 = .ok (true, t) ∧
      (printCourseList t).Pairwise
        (fun a b => strLt a.courseNumber b.courseNumber = true) ∧
      (∀ r, r ∈ printCourseList t ↔
        ∃ pre post, specValidRecords sampleText = pre ++ r :: post ∧
          ∀ a ∈ pre, a.courseNumber ≠ r.courseNumber) ∧
      (∀ out : List Course, out.Perm t.GetAllCourses →
        out.Pairwise (fun a b => byCourseNumber b a = false) → out = printCourseList t) :=
  ⟨by decide, C10_sorted_listing_round_trip 179 (by decide) sampleText⟩

/-! ## The hash function and the polynomial hash -/

theorem polyHash_append_singleton (k : Str) (b : Byte) :
    polyHash (k ++ [b]) = polyHash k * 31 + b.val := by
  induction k with
  | nil => simp [polyHash]
  | cons a rest ih =>
    change a.val * 31 ^ (rest ++ [b]).length + polyHash (rest ++ [b])
      = (a.val * 31 ^ rest.length + polyHash rest) * 31 + b.val
    rw [ih, List.length_append, List.length_singleton, pow_succ]
    ring

theorem foldl_hash_eq_poly (c : Nat) (hc : 0 < c)
    (hstep : ∀ h b, h < c → b < 256 → (h * 31 + b) % 4294967296 % c = (h * 31 + b) % c)
    (k : Str) (h P : Nat) (hP : h = P % c) :
    k.foldl (fun h ch => (h * 31 + ch.val) % 4294967296 % c) h
      = (P * 31 ^ k.length + polyHash k) % c := by
  induction k generalizing h P with
  | nil => simp [polyHash, hP]
  | cons b rest ih =>
    have hlt : h < c := by rw [hP]; exact Nat.mod_lt _ hc
    have hs : (h * 31 + b.val) % 4294967296 % c = (P * 31 + b.val) % c := by
      rw [hstep h b.val hlt b.isLt, hP]
      conv_rhs => rw [Nat.add_mod, Nat.mul_mod]
      conv_lhs => rw [Nat.add_mod, Nat.mul_mod, Nat.mod_mod]
    simp only [List.foldl_cons]
    rw [ih _ (P * 31 + b.val) hs]
    congr 1
    simp only [polyHash, List.length_cons]
    ring

theorem hash_step_no_wrap (c : Nat)
    (hsmall : 31 * (c - 1) + 255 < 4294967296 ∨ c ∣ 4294967296) (h b : Nat) (hh : h < c)
    (hb : b < 256) : (h * 31 + b) % 4294967296 % c = (h * 31 + b) % c := by
  rcases hsmall with hs | hd
  · have hno : h * 31 + b < 4294967296 := by omega
    rw [Nat.mod_eq_of_lt hno]
  · exact Nat.mod_mod_of_dvd _ hd

/-- C11, the claim as stated fails: with the largest 32-bit capacity and the key of six bytes
`0xFF` the accumulator wraps around, and the code returns 3248813984 where the polynomial hash
reduced once gives 3248813985. -/
theorem C11_hash_differs_from_polynomial_when_wrapping :
    0 < sampleLargeSize ∧ sampleLargeSize < 4294967296 ∧
    HashTable.hash { nodes := [], tableSize := sampleLargeSize } sampleKey = .ok 3248813984 ∧
    polyHash sampleKey % sampleLargeSize = 3248813985 ∧
    HashTable.hash { nodes := [], tableSize := sampleLargeSize } sampleKey
      ≠ .ok (polyHash sampleKey % sampleLargeSize) := by
  decide

/-- C11, amended: for every capacity `c > 0` for which the wrap-around of the accumulator
cannot show, because no wrap-around happens (`31 * (c - 1) + 255 < 2 ^ 32`, that is
`c <= 138547324`) or because `c` divides `2 ^ 32`, and for every key, `hash` returns the
polynomial hash `sum of byte_i * 31 ^ (n - 1 - i)`, reduced modulo `c` once. -/
theorem C11_hash_eq_polynomial_without_wrapping (t : HashTable) (hc : 0 < t.tableSize)
    (hsmall : 31 * (t.tableSize - 1) + 255 < 4294967296 ∨ t.tableSize ∣ 4294967296)
    (k : Str) :
    t.hash k = .ok (polyHash k % t.tableSize) := by
  rw [hash_eq t hc, hashVal, foldl_hash_eq_poly t.tableSize hc
    (hash_step_no_wrap t.tableSize hsmall) k 0 0 (Nat.zero_mod _).symm]
  simp

theorem C11_hash_eq_polynomial_without_wrapping_witness :
    0 < sampleTable.tableSize ∧
    (31 * (sampleTable.tableSize - 1) + 255 < 4294967296 ∨ sampleTable.tableSize ∣ 4294967296) ∧
    sampleTable.hash sampleKey = .ok (polyHash sampleKey % sampleTable.tableSize) :=
  ⟨by decide, Or.inl (by decide),
    C11_hash_eq_polynomial_without_wrapping sampleTable (by decide) (Or.inl (by decide))
      sampleKey⟩

/-! ## Clearing, copying and assigning -/

theorem clearChain_eq (chain : List Course) : HashTable.clearChain chain = [] := by
  induction chain with
  | nil => rfl
  | cons c next ih => simpa [HashTable.clearChain] using ih

theorem clear_nodes (t : HashTable) : t.clear.nodes = List.replicate t.nodes.length [] := by
  apply List.ext_getElem
  · simp [HashTable.clear]
  · intro i h1 h2
    simp [HashTable.clear, clearChain_eq]

theorem resize_clear (t : HashTable) (n : Nat) :
    HashTable.resize t.clear.nodes n = List.replicate n [] := by
  rw [clear_nodes, HashTable.resize]
  by_cases h : n ≤ t.nodes.length
  · simp [h, List.take_replicate]
  · simp only [List.length_replicate, h, if_false]
    rw [← List.replicate_add]
    congr 1
    omega

theorem assign_eq_copy (self other : HashTable) : self.assign other = other.copy := by
  simp only [HashTable.assign, HashTable.copy, resize_clear]

theorem insertChain_append (t : HashTable) (xs ys : List Course) :
    t.insertChain (xs ++ ys)
      = match t.insertChain xs with
        | .error e => .error e
        | .ok t' => t'.insertChain ys := by
  induction xs generalizing t with
  | nil => rfl
  | cons x rest ih =>
    simp only [List.cons_append, HashTable.insertChain]
    cases t.Insert x with
    | error e => rfl
    | ok t1 => exact ih t1

theorem insertAllChains_eq_insertChain (t : HashTable) (chains : List (List Course)) :
    t.insertAllChains chains = t.insertChain chains.flatten := by
  induction chains generalizing t with
  | nil => rfl
  | cons n rest ih =>
    simp only [HashTable.insertAllChains, List.flatten_cons, insertChain_append]
    cases t.insertChain n with
    | error e => rfl
    | ok t1 => exact ih t1

theorem copy_eq (s : HashTable) (hc : 0 < s.tableSize) :
    s.copy = .ok { nodes := bucketsOf s.tableSize s.nodes.flatten, tableSize := s.tableSize } := by
  rw [HashTable.copy, insertAllChains_eq_insertChain, ← bucketsOf_nil,
    insertChain_bucketsOf s.tableSize hc [] s.nodes.flatten]
  simp

theorem flatten_map_range_single {α : Type} (f : Nat → List α) (c i : Nat) (hi : i < c)
    (hf : ∀ j, j ≠ i → f j = []) : ((List.range c).map f).flatten = f i := by
  induction c with
  | zero => omega
  | succ n ih =>
    rw [List.range_succ, List.map_append, List.flatten_append]
    by_cases h : i = n
    · subst h
      have h0 : ((List.range i).map f).flatten = [] := by
        rw [List.flatten_eq_nil_iff]
        intro l hl
        obtain ⟨j, hj, rfl⟩ := List.mem_map.mp hl
        exact hf j (by have := List.mem_range.mp hj; omega)
      simp [h0]
    · rw [ih (by omega)]
      simp [hf n (fun hn => h hn.symm)]

theorem mem_bucketOf (c : Nat) (rs : List Course) (i : Nat) (r : Course) :
    r ∈ bucketOf c rs i ↔ r ∈ rs ∧ hashVal c r.courseNumber = i := by
  simp [bucketOf]

theorem filter_flatten_bucketsOf (c : Nat) (rs : List Course) (i : Nat) (hi : i < c) :
    (bucketsOf c rs).flatten.filter (fun r => decide (hashVal c r.courseNumber = i))
      = bucketOf c rs i := by
  rw [List.filter_flatten, bucketsOf, List.map_map]
  rw [flatten_map_range_single _ c i hi]
  · simp only [Function.comp]
    rw [List.filter_eq_self]
    intro r hr
    simpa using ((mem_bucketOf c rs i r).mp hr).2
  · intro j hj
    simp only [Function.comp]
    rw [List.filter_eq_nil_iff]
    intro r hr
    have := ((mem_bucketOf c rs j r).mp hr).2
    simpa [this] using hj

theorem bucketsOf_flatten_bucketsOf (c : Nat) (rs : List Course) :
    bucketsOf c (bucketsOf c rs).flatten = (bucketsOf c rs).map List.reverse := by
  apply List.ext_getElem
  · simp [bucketsOf]
  · intro i h1 h2
    have hi : i < c := by simpa [bucketsOf] using h1
    have := filter_flatten_bucketsOf c rs i hi
    simp only [List.getElem_map]
    simp only [bucketsOf, List.getElem_map, List.getElem_range] at this ⊢
    rw [bucketOf, this]

theorem bucketsOf_reverse (c : Nat) (rs : List Course) :
    bucketsOf c rs.reverse = (bucketsOf c rs).map List.reverse := by
  simp [bucketsOf, bucketOf, List.filter_reverse]

theorem copy_bucketsOf (c : Nat) (hc : 0 < c) (rs : List Course) :
    HashTable.copy { nodes := bucketsOf c rs, tableSize := c }
      = .ok { nodes := (bucketsOf c rs).map List.reverse, tableSize := c } := by
  rw [copy_eq _ hc, bucketsOf_flatten_bucketsOf]

/-- Every reachable store is the store built by some sequence of `Insert` calls. -/
theorem reachable_canonical (t : HashTable) (h : Reachable t) :
    ∃ c rs, 0 < c ∧ t = { nodes := bucketsOf c rs, tableSize := c } := by
  induction h with
  | construct size t hnew =>
    have hpos : 0 < size := by
      rcases Nat.eq_zero_or_pos size with h0 | h0
      · subst h0
        simp [HashTable.new] at hnew
      · exact h0
    rw [new_eq size hpos] at hnew
    cases hnew
    exact ⟨size, [], hpos, by rw [bucketsOf_nil]⟩
  | insert t course t' _ hins ih =>
    obtain ⟨c, rs, hc, rfl⟩ := ih
    rw [Insert_bucketsOf c hc] at hins
    cases hins
    exact ⟨c, rs ++ [course], hc, rfl⟩
  | clear t _ ih =>
    obtain ⟨c, rs, hc, rfl⟩ := ih
    refine ⟨c, [], hc, ?_⟩
    simp only [HashTable.clear]
    congr 1
    have := clear_nodes { nodes := bucketsOf c rs, tableSize := c }
    simp only [HashTable.clear, length_bucketsOf] at this
    rw [this, bucketsOf_nil]
  | copy other t _ hcopy ih =>
    obtain ⟨c, rs, hc, rfl⟩ := ih
    rw [copy_bucketsOf c hc, ← bucketsOf_reverse] at hcopy
    cases hcopy
    exact ⟨c, rs.reverse, hc, rfl⟩
  | assign self other t _ _ hassign _ ih =>
    obtain ⟨c, rs, hc, rfl⟩ := ih
    rw [assign_eq_copy, copy_bucketsOf c hc, ← bucketsOf_reverse] at hassign
    cases hassign
    exact ⟨c, rs.reverse, hc, rfl⟩

theorem reachable_WF (t : HashTable) (h : Reachable t) : t.WF := by
  obtain ⟨c, rs, hc, rfl⟩ := reachable_canonical t h
  exact bucketsOf_WF c hc rs

theorem reachable_insertChain (t t' : HashTable) (rs : List Course) (h : Reachable t)
    (hins : t.insertChain rs = .ok t') : Reachable t' := by
  induction rs generalizing t with
  | nil =>
    simp only [HashTable.insertChain, Except.ok.injEq] at hins
    exact hins ▸ h
  | cons r rest ih =>
    simp only [HashTable.insertChain] at hins
    cases h1 : t.Insert r with
    | error e => simp [h1] at hins
    | ok t1 =>
      rw [h1] at hins
      exact ih t1 (Reachable.insert t r t1 h h1) hins

theorem reachable_build (c : Nat) (rs : List Course) (t : HashTable)
    (h : HashTable.build c rs = .ok t) : Reachable t := by
  unfold HashTable.build at h
  cases h0 : HashTable.new c with
  | error e => simp [h0] at h
  | ok t0 =>
    rw [h0] at h
    exact reachable_insertChain t0 t rs (Reachable.construct c t0 h0) h

theorem reachable_sampleTable : Reachable sampleTable :=
  reachable_build 3 [sampleFirst, sampleSecond] sampleTable (by decide)

theorem reachable_sampleWide : Reachable sampleWide :=
  reachable_build 5 [sampleFirst] sampleWide (by decide)

/-! ## Lookup in a store and in its copy -/

theorem find?_filter_of_imp (p q : Course → Bool) (l : List Course)
    (h : ∀ x, p x = true → q x = true) : (l.filter q).find? p = l.find? p := by
  induction l with
  | nil => rfl
  | cons x rest ih =>
    by_cases hq : q x = true
    · rw [List.filter_cons_of_pos hq, List.find?_cons, List.find?_cons, ih]
    · have hp : p x = false := by
        cases hpx : p x with
        | false => rfl
        | true => exact absurd (h x hpx) hq
      rw [List.filter_cons_of_neg hq, List.find?_cons, hp, ih]

theorem find?_eq_head?_filter (p : Course → Bool) (l : List Course) :
    l.find? p = (l.filter p).head? := by
  induction l with
  | nil => rfl
  | cons x rest ih =>
    by_cases hp : p x = true
    · rw [List.find?_cons, List.filter_cons_of_pos hp, hp]
      rfl
    · have hp' : p x = false := by simpa using hp
      rw [List.find?_cons, List.filter_cons_of_neg hp, hp', ih]

theorem find?_reverse_of_at_most_one (p : Course → Bool) (l : List Course)
    (h : (l.filter p).length ≤ 1) : l.reverse.find? p = l.find? p := by
  rw [find?_eq_head?_filter, find?_eq_head?_filter, List.filter_reverse]
  cases hm : l.filter p with
  | nil => rfl
  | cons x rest =>
    rw [hm] at h
    cases rest with
    | nil => rfl
    | cons y ys => simp at h

theorem Search_bucketsOf (c : Nat) (hc : 0 < c) (rs : List Course) (k : Str) :
    HashTable.Search { nodes := bucketsOf c rs, tableSize := c } k
      = .ok (rs.reverse.find? (fun r => decide (r.courseNumber = k))) := by
  rw [Search_eq _ (bucketsOf_WF c hc rs)]
  simp only [getD_bucketsOf c rs _ (hashVal_lt c hc k), searchChain_eq_find, bucketOf]
  rw [← List.filter_reverse, find?_filter_of_imp]
  intro x hx
  have : x.courseNumber = k := by simpa using hx
  simp [this]

/-- C12, the claim as stated fails: the store built by inserting two records with the
identifier `CS101` returns the second one, its copy returns the first one. -/
theorem C12_copy_search_differs_with_duplicates :
    ∃ s t, HashTable.build 3 [sampleFirst, sampleSecond] = .ok s ∧ s.copy = .ok t ∧
      s.Search sampleFirst.courseNumber = .ok (some sampleSecond) ∧
      t.Search sampleFirst.courseNumber = .ok (some sampleFirst) ∧
      s.Search sampleFirst.courseNumber ≠ t.Search sampleFirst.courseNumber :=
  ⟨sampleTable, sampleReversed, by decide, by decide, by decide, by decide, by decide⟩

/-- C12, amended: for a store built from an empty store of capacity `c > 0` by inserting `rs`
in order, `Search(k)` returns the latest inserted record with identifier `k` and `Search(k)` on
the copy returns the earliest inserted one; so both are absent together, and both return the
same record whenever at most one inserted record has identifier `k`. -/
theorem C12_copy_search_returns_earliest_inserted (c : Nat) (hc : 0 < c) (rs : List Course)
    (k : Str) :
    ∃ s t, HashTable.build c rs = .ok s ∧ s.copy = .ok t ∧
      s.Search k = .ok (rs.reverse.find? (fun r => decide (r.courseNumber = k))) ∧
      t.Search k = .ok (rs.find? (fun r => decide (r.courseNumber = k))) ∧
      (s.Search k = .ok none ↔ t.Search k = .ok none) ∧
      ((rs.filter (fun r => decide (r.courseNumber = k))).length ≤ 1 →
        t.Search k = s.Search k) := by
  have hs := Search_bucketsOf c hc rs k
  have ht := Search_bucketsOf c hc rs.reverse k
  rw [List.reverse_reverse] at ht
  refine ⟨_, _, build_eq c hc rs, ?_, hs, ht, ?_, ?_⟩
  · rw [copy_bucketsOf c hc, ← bucketsOf_reverse]
  · rw [hs, ht]
    simp only [Except.ok.injEq, List.find?_eq_none, List.mem_reverse]
  · intro h
    rw [hs, ht, find?_reverse_of_at_most_one _ rs h]

theorem C12_copy_search_returns_earliest_inserted_witness :
    0 < 3 ∧ ∃ s t, HashTable.build 3 [sampleFirst, sampleSecond] = .ok s ∧ s.copy = .ok t ∧
      s.Search [67, 83] = .ok ([sampleFirst, sampleSecond].reverse.find?
        (fun r => decide (r.courseNumber = [67, 83]))) ∧
      t.Search [67, 83] = .ok ([sampleFirst, sampleSecond].find?
        (fun r => decide (r.courseNumber = [67, 83]))) ∧
      (s.Search [67, 83] = .ok none ↔ t.Search [67, 83] = .ok none) ∧
      (([sampleFirst, sampleSecond].filter
          (fun r => decide (r.courseNumber = [67, 83]))).length ≤ 1 →
        t.Search [67, 83] = s.Search [67, 83]) :=
  ⟨by decide,
    C12_copy_search_returns_earliest_inserted 3 (by decide) [sampleFirst, sampleSecond]
      [67, 83]⟩

/-! ## Invariants of the reachable stores -/

/-- C13: in every reachable store (construction, `Insert`, `clear`, copy, assignment from a
store of any capacity) every record stored in bucket `i` has `hash(courseNumber) = i` for the
current `tableSize`. -/
theorem C13_bucket_placement (t : HashTable) (h : Reachable t) (i : Nat)
    (hi : i < t.nodes.length) (r : Course) (hr : r ∈ t.nodes.get ⟨i, hi⟩) :
    t.hash r.courseNumber = .ok i := by
  obtain ⟨c, rs, hc, rfl⟩ := reachable_canonical t h
  rw [hash_eq _ hc]
  simp only [bucketsOf, List.get_eq_getElem, List.getElem_map, List.getElem_range] at hr
  rw [((mem_bucketOf c rs i r).mp hr).2]

theorem C13_bucket_placement_witness :
    Reachable sampleReversed ∧ ∃ hi : 2 < sampleReversed.nodes.length,
      sampleSecond ∈ sampleReversed.nodes.get ⟨2, hi⟩ ∧
      sampleReversed.hash sampleSecond.courseNumber = .ok 2 :=
  have hreach : Reachable sampleReversed :=
    Reachable.assign sampleWide sampleTable sampleReversed reachable_sampleWide
      reachable_sampleTable (by decide)
  ⟨hreach, by decide, by decide,
    C13_bucket_placement sampleReversed hreach 2 (by decide) sampleSecond (by decide)⟩

theorem copy_WF (s : HashTable) (hwf : s.WF) :
    ∃ t, s.copy = .ok t ∧ t.WF ∧ t.tableSize = s.tableSize :=
  ⟨_, copy_eq s hwf.2, bucketsOf_WF _ hwf.2 _, rfl⟩

/-- C14, the claim as stated fails: assigning a store of three buckets to a store constructed
with five buckets leaves the latter with `tableSize` 3. -/
theorem C14_assignment_changes_tableSize :
    HashTable.build 5 [sampleFirst] = .ok sampleWide ∧
    HashTable.build 3 [sampleFirst, sampleSecond] = .ok sampleTable ∧
    ∃ t, sampleWide.assign sampleTable = .ok t ∧ t.tableSize = 3 ∧
      t.tableSize ≠ sampleWide.tableSize :=
  ⟨by decide, by decide, sampleReversed, by decide, by decide, by decide⟩

/-- C14, amended: on a reachable store `Insert` and `clear` leave `tableSize` as it was
(`Search` and `GetAllCourses` return no store: they change nothing), while assignment from
another store sets `tableSize` to that of the source, so it keeps the value only when both
stores have the same capacity. -/
theorem C14_tableSize_kept_except_by_assignment (t other : HashTable) (ht : Reachable t)
    (ho : Reachable other) :
    (∀ r, ∃ t', t.Insert r = .ok t' ∧ t'.tableSize = t.tableSize) ∧
    t.clear.tableSize = t.tableSize ∧
    ∃ t', t.assign other = .ok t' ∧ t'.tableSize = other.tableSize ∧
      (t'.tableSize = t.tableSize ↔ other.tableSize = t.tableSize) := by
  refine ⟨fun r => ⟨_, Insert_eq t (reachable_WF t ht) r, rfl⟩, rfl, ?_⟩
  obtain ⟨t', h1, _, h3⟩ := copy_WF other (reachable_WF other ho)
  refine ⟨t', ?_, h3, ?_⟩
  · rw [assign_eq_copy, h1]
  · rw [h3]

theorem C14_tableSize_kept_except_by_assignment_witness :
    Reachable sampleWide ∧ Reachable sampleTable ∧
    ((∀ r, ∃ t', sampleWide.Insert r = .ok t' ∧ t'.tableSize = sampleWide.tableSize) ∧
    sampleWide.clear.tableSize = sampleWide.tableSize ∧
    ∃ t', sampleWide.assign sampleTable = .ok t' ∧ t'.tableSize = sampleTable.tableSize ∧
      (t'.tableSize = sampleWide.tableSize ↔ sampleTable.tableSize = sampleWide.tableSize)) :=
  ⟨reachable_sampleWide, reachable_sampleTable,
    C14_tableSize_kept_except_by_assignment sampleWide sampleTable reachable_sampleWide
      reachable_sampleTable⟩

/-- C15: in every reachable store the bucket array has `tableSize` entries and `tableSize > 0`,
so `hash` returns an index inside the array and `Insert` and `Search` return normally
(`GetAllCourses` is a total function); the copy constructor and assignment return normally as
well. -/
theorem C15_store_operations_total (t : HashTable) (h : Reachable t) :
    t.nodes.length = t.tableSize ∧ 0 < t.tableSize ∧
    (∀ k, ∃ i, t.hash k = .ok i ∧ i < t.nodes.length) ∧
    (∀ r, ∃ t', t.Insert r = .ok t') ∧
    (∀ k, ∃ res, t.Search k = .ok res) ∧
    (∃ t', t.copy = .ok t') ∧
    (∀ self, ∃ t', HashTable.assign self t = .ok t') := by
  have hwf := reachable_WF t h
  refine ⟨hwf.1, hwf.2, fun k => ⟨_, hash_eq t hwf.2 k, ?_⟩, fun r => ⟨_, Insert_eq t hwf r⟩,
    fun k => ⟨_, Search_eq t hwf k⟩, ⟨_, copy_eq t hwf.2⟩,
    fun self => ⟨_, (assign_eq_copy self t).trans (copy_eq t hwf.2)⟩⟩
  rw [hwf.1]
  exact hashVal_lt _ hwf.2 k

theorem C15_store_operations_total_witness :
    Reachable sampleWide.clear ∧
    (sampleWide.clear.nodes.length = sampleWide.clear.tableSize ∧
    0 < sampleWide.clear.tableSize ∧
    (∀ k, ∃ i, sampleWide.clear.hash k = .ok i ∧ i < sampleWide.clear.nodes.length) ∧
    (∀ r, ∃ t', sampleWide.clear.Insert r = .ok t') ∧
    (∀ k, ∃ res, sampleWide.clear.Search k = .ok res) ∧
    (∃ t', sampleWide.clear.copy = .ok t') ∧
    (∀ self, ∃ t', HashTable.assign self sampleWide.clear = .ok t')) :=
  ⟨Reachable.clear sampleWide reachable_sampleWide,
    C15_store_operations_total sampleWide.clear
      (Reachable.clear sampleWide reachable_sampleWide)⟩

/-- C16: after the assignment `a = b` of two distinct stores, `a` is in the state that copying
`b` produces (same `tableSize`, same chains), whatever `a` held and whatever its capacity
was. -/
theorem C16_assignment_equals_copy (a b : HashTable) (hb : Reachable b) :
    ∃ t, a.assign b = .ok t ∧ b.copy = .ok t ∧ t.tableSize = b.tableSize ∧
      t.nodes = b.nodes.map List.reverse := by
  obtain ⟨c, rs, hc, rfl⟩ := reachable_canonical b hb
  refine ⟨_, ?_, copy_bucketsOf c hc rs, rfl, rfl⟩
  rw [assign_eq_copy, copy_bucketsOf c hc rs]

theorem C16_assignment_equals_copy_witness :
    Reachable sampleTable ∧
    ∃ t, sampleWide.assign sampleTable = .ok t ∧ sampleTable.copy = .ok t ∧
      t.tableSize = sampleTable.tableSize ∧ t.nodes = sampleTable.nodes.map List.reverse :=
  ⟨reachable_sampleTable, C16_assignment_equals_copy sampleWide sampleTable reachable_sampleTable⟩

theorem searchChain_cons_of_ne (k : Str) (r : Course) (chain : List Course)
    (h : k ≠ r.courseNumber) :
    HashTable.searchChain k (r :: chain) = HashTable.searchChain k chain := by
  simp [HashTable.searchChain, Ne.symm h]

/-- C17: on a reachable store, `Insert(r)` does not change the result of `Search(k)` for any
key `k` other than `r.courseNumber`, whether or not both keys share a bucket. -/
theorem C17_insert_keeps_other_lookups (t : HashTable) (h : Reachable t) (r : Course)
    (k : Str) (hk : k ≠ r.courseNumber) :
    ∃ t', t.Insert r = .ok t' ∧ t'.Search k = t.Search k := by
  have hwf := reachable_WF t h
  have hI := Insert_eq t hwf r
  obtain ⟨hwf1, _⟩ := Insert_WF t _ hwf r hI
  refine ⟨_, hI, ?_⟩
  rw [Search_eq _ hwf1, Search_eq t hwf]
  have hlt : hashVal t.tableSize r.courseNumber < t.nodes.length := by
    rw [hwf.1]
    exact hashVal_lt _ hwf.2 _
  congr 1
  simp only [List.getD_eq_getElem?_getD, List.getElem?_set]
  by_cases hsame : hashVal t.tableSize r.courseNumber = hashVal t.tableSize k
  · rw [if_pos hsame, if_pos hlt, Option.getD_some, searchChain_cons_of_ne k r _ hk, hsame]
  · rw [if_neg hsame]

theorem C17_insert_keeps_other_lookups_witness :
    Reachable sampleWide ∧ sampleFirst.courseNumber ≠ [66] ∧
    sampleWide.hash [66] = sampleWide.hash sampleFirst.courseNumber ∧
    ∃ t', sampleWide.Insert { courseNumber := [66], courseTitle := [], prerequisites := [] }
        = .ok t' ∧
      t'.Search sampleFirst.courseNumber = sampleWide.Search sampleFirst.courseNumber :=
  ⟨reachable_sampleWide, by decide, by decide,
    C17_insert_keeps_other_lookups sampleWide reachable_sampleWide
      { courseNumber := [66], courseTitle := [], prerequisites := [] }
      sampleFirst.courseNumber (by decide)⟩

/-! ## The copy reverses the chains -/

theorem flatten_map_reverse_eq_iff (l : List (List Course)) :
    (l.map List.reverse).flatten = l.flatten ↔ ∀ chain ∈ l, chain.reverse = chain := by
  induction l with
  | nil => simp
  | cons n rest ih =>
    simp only [List.map_cons, List.flatten_cons, List.mem_cons, forall_eq_or_imp]
    constructor
    · intro h
      obtain ⟨h1, h2⟩ := List.append_inj h (by simp)
      exact ⟨h1, ih.mp h2⟩
    · rintro ⟨h1, h2⟩
      rw [h1, ih.mpr h2]

theorem map_reverse_map_reverse (l : List (List Course)) :
    (l.map List.reverse).map List.reverse = l := by
  induction l with
  | nil => rfl
  | cons n rest ih => simp [ih]

/-- C18: the copy of a reachable store has, in every bucket, the chain of the source in the
opposite order; so copying twice gives back the enumeration of the source, and the copy
enumerates like the source exactly when every chain of the source reads the same in both
directions. -/
theorem C18_copy_reverses_chains (s : HashTable) (h : Reachable s) :
    ∃ t u, s.copy = .ok t ∧ t.copy = .ok u ∧
      t.nodes = s.nodes.map List.reverse ∧
      u.GetAllCourses = s.GetAllCourses ∧
      (t.GetAllCourses = s.GetAllCourses ↔ ∀ chain ∈ s.nodes, chain.reverse = chain) := by
  obtain ⟨c, rs, hc, rfl⟩ := reachable_canonical s h
  have h1 := copy_bucketsOf c hc rs
  have h2 := copy_bucketsOf c hc rs.reverse
  rw [bucketsOf_reverse] at h2
  refine ⟨_, _, h1, h2, rfl, ?_, ?_⟩
  · rw [GetAllCourses_eq, GetAllCourses_eq, map_reverse_map_reverse]
  · rw [GetAllCourses_eq, GetAllCourses_eq]
    exact flatten_map_reverse_eq_iff _

theorem C18_copy_reverses_chains_witness :
    Reachable sampleTable ∧
    ∃ t u, sampleTable.copy = .ok t ∧ t.copy = .ok u ∧
      t.nodes = sampleTable.nodes.map List.reverse ∧
      u.GetAllCourses = sampleTable.GetAllCourses ∧
      (t.GetAllCourses = sampleTable.GetAllCourses
        ↔ ∀ chain ∈ sampleTable.nodes, chain.reverse = chain) :=
  ⟨reachable_sampleTable, C18_copy_reverses_chains sampleTable reachable_sampleTable⟩

/-! ## Loading into a store that is not empty -/

theorem exists_first_with_courseNumber (l : List Course) (v : Course) (hv : v ∈ l) :
    ∃ pre r post, l = pre ++ r :: post ∧ r.courseNumber = v.courseNumber ∧
      ∀ a ∈ pre, a.courseNumber ≠ r.courseNumber := by
  induction l with
  | nil => simp at hv
  | cons x rest ih =>
    by_cases hx : x.courseNumber = v.courseNumber
    · exact ⟨[], x, rest, rfl, hx, by simp⟩
    · have hmem : v ∈ rest := by
        rcases List.mem_cons.mp hv with h | h
        · exact absurd (h ▸ rfl) hx
        · exact h
      obtain ⟨pre, r, post, h1, h2, h3⟩ := ih hmem
      refine ⟨x :: pre, r, post, by simp [h1], h2, ?_⟩
      intro a ha
      rcases List.mem_cons.mp ha with ha | ha
      · rw [ha, h2]
        exact hx
      · exact h3 a ha

theorem length_specInserts (lines : List Str) :
    (specInserts [] lines).length
      = (((lines.filter (fun line => !specInvalid line)).map specCourse).map
          (fun r => r.courseNumber)).dedup.length := by
  have hnodup : ((specInserts [] lines).map (fun r => r.courseNumber)).Nodup := by
    rw [List.Nodup, List.pairwise_map]
    exact specInserts_pairwise lines []
  have hset : ((specInserts [] lines).map (fun r => r.courseNumber)).toFinset
      = (((lines.filter (fun line => !specInvalid line)).map specCourse).map
          (fun r => r.courseNumber)).toFinset := by
    ext k
    simp only [List.mem_toFinset]
    rw [List.mem_map, List.mem_map]
    constructor
    · rintro ⟨r, hr, rfl⟩
      obtain ⟨_, pre, post, h1, _⟩ := (mem_specInserts lines [] r).mp hr
      exact ⟨r, by rw [h1]; simp, rfl⟩
    · rintro ⟨v, hv, rfl⟩
      obtain ⟨pre, r, post, h1, h2, h3⟩ := exists_first_with_courseNumber _ v hv
      exact ⟨r, (mem_specInserts lines [] r).mpr ⟨by simp, pre, post, h1, h3⟩, h2⟩
  rw [← List.card_toFinset, ← hset, List.toFinset_card_of_nodup hnodup, List.length_map]

theorem loadCourseData_perm (text : Str) (s : HashTable) (hwf : s.WF) :
    ∃ t, loadCourseData (some text) s = .ok (true, t) ∧ t.WF ∧
      t.GetAllCourses.Perm (specInserts [] (specLines text) ++ s.GetAllCourses) := by
  obtain ⟨t, h1, h2, h3⟩ := loadCourseData_eq text s hwf
  obtain ⟨t', h4, _, _, h5⟩ := insertChain_perm s hwf (specInserts [] (specLines text))
  rw [h3] at h4
  cases h4
  exact ⟨t, h1, h2, by rw [GetAllCourses_eq, GetAllCourses_eq]; exact h5⟩

/-- C19: loading a text into any reachable store, empty or not, adds as many records to the
enumeration as the text has distinct valid identifiers, whatever identifiers the store already
held; loading the same text a second time adds every one of these records once more. -/
theorem C19_ingestion_ignores_stored_identifiers (text : Str) (s : HashTable)
    (hs : Reachable s) :
    ∃ t u, loadCourseData (some text) s = .ok (true, t) ∧
      loadCourseData (some text) t = .ok (true, u) ∧
      t.GetAllCourses.length = s.GetAllCourses.length +
        ((specValidRecords text).map (fun r => r.courseNumber)).dedup.length ∧
      u.GetAllCourses.length = t.GetAllCourses.length +
        ((specValidRecords text).map (fun r => r.courseNumber)).dedup.length ∧
      ∀ r, u.GetAllCourses.count r + s.GetAllCourses.count r = 2 * t.GetAllCourses.count r := by
  obtain ⟨t, h1, hwt, hp1⟩ := loadCourseData_perm text s (reachable_WF s hs)
  obtain ⟨u, h2, _, hp2⟩ := loadCourseData_perm text t hwt
  have hlen := length_specInserts (specLines text)
  refine ⟨t, u, h1, h2, ?_, ?_, ?_⟩
  · rw [hp1.length_eq, List.length_append, hlen, specValidRecords]
    omega
  · rw [hp2.length_eq, List.length_append, hlen, specValidRecords]
    omega
  · intro r
    have e1 := hp1.count_eq r
    have e2 := hp2.count_eq r
    rw [List.count_append] at e1 e2
    omega

theorem C19_ingestion_ignores_stored_identifiers_witness :
    Reachable sampleTable ∧
    ∃ t u, loadCourseData (some sampleText) sampleTable = .ok (true, t) ∧
      loadCourseData (some sampleText) t = .ok (true, u) ∧
      t.GetAllCourses.length = sampleTable.GetAllCourses.length +
        ((specValidRecords sampleText).map (fun r => r.courseNumber)).dedup.length ∧
      u.GetAllCourses.length = t.GetAllCourses.length +
        ((specValidRecords sampleText).map (fun r => r.courseNumber)).dedup.length ∧
      ∀ r, u.GetAllCourses.count r + sampleTable.GetAllCourses.count r
        = 2 * t.GetAllCourses.count r :=
  ⟨reachable_sampleTable,
    C19_ingestion_ignores_stored_identifiers sampleText sampleTable reachable_sampleTable⟩

end ProjectTwo
